import Mathlib

/-!
Verification development for the weather prediction-market bot.

Shallow embedding conventions:
* Python floats are embedded as exact rationals (`ℚ`); the source's arithmetic
  is carried out exactly.
* Python's built-in `round` (banker's rounding, round-half-to-even) is embedded
  as `halfEvenRound`; `round(x, n)` becomes `roundTo n x`.
* Python dict construction `{key(x): x for x in l}` followed by `.get k` is
  embedded as `dictLast` (last binding wins on duplicate keys, as in Python).
* The transcendental `math.exp` of the probability model is treated as an
  uninterpreted function parameter `expQ : ℚ → ℚ`; every theorem about the
  temperature path is proved for an arbitrary such function.
* Hourly timestamps are embedded as integers (hours since an epoch, UTC);
  `ts.date()` becomes flooring division by 24.
-/

namespace Bot

/-- Python's built-in `round` on an exact rational: round half to even. -/
def halfEvenRound (q : ℚ) : ℤ :=
  let f : ℤ := ⌊q⌋
  let r : ℚ := q - f
  if r < 1/2 then f
  else if 1/2 < r then f + 1
  else if f % 2 = 0 then f else f + 1

/-- Python's `round(x, n)` on an exact rational. -/
def roundTo (n : ℕ) (q : ℚ) : ℚ :=
  (halfEvenRound (q * (10 : ℚ) ^ n) : ℚ) / (10 : ℚ) ^ n

/-! ## Signal model (`src/bot/models/signal.py`) -/

/-- The `Signal` dataclass. Fields are stored after the source's rounding. -/
structure SignalT where
  market_id : String
  question : String
  action : String
  market_yes_prob : ℚ
  model_yes_prob : ℚ
  edge_bps : ℤ
  confidence : ℚ
  liquidity : ℚ
  rationale : String
deriving DecidableEq, Repr

/-- The signal-threshold section of the configuration dict. -/
structure SignalCfg where
  minEdgeBps : ℤ
  minConfidence : ℚ
deriving DecidableEq, Repr

/-- A market candidate dict as produced by `fetch_weather_candidates`
(the fields read by `evaluate_signal` and `run_scan`). -/
structure MarketC where
  id : String
  question : String
  yesPrice : ℚ
  liquidity : ℚ
deriving DecidableEq, Repr

/-- Embedding of `evaluate_signal` from `src/bot/models/signal.py`. -/
def evaluateSignal (market : MarketC) (modelProb confidence : ℚ)
    (rationale : String) (cfg : SignalCfg) : Option SignalT :=
  let marketYesProb := market.yesPrice
  let edgeBps : ℤ := halfEvenRound ((modelProb - marketYesProb) * 10000)
  if confidence < cfg.minConfidence then none
  else if cfg.minEdgeBps ≤ edgeBps then
    some { market_id := market.id, question := market.question, action := "BUY_YES",
           market_yes_prob := roundTo 4 marketYesProb,
           model_yes_prob := roundTo 4 modelProb,
           edge_bps := edgeBps, confidence := roundTo 4 confidence,
           liquidity := roundTo 2 market.liquidity, rationale := rationale }
  else if edgeBps ≤ -cfg.minEdgeBps then
    some { market_id := market.id, question := market.question, action := "BUY_NO",
           market_yes_prob := roundTo 4 marketYesProb,
           model_yes_prob := roundTo 4 modelProb,
           edge_bps := edgeBps, confidence := roundTo 4 confidence,
           liquidity := roundTo 2 market.liquidity, rationale := rationale }
  else none

/-! ## Weather probability model (`src/bot/adapters/weather.py`)

The HTTP collaborators (geocoding, forecast fetch) and the regex-based
question interpreters are external to the probability computation; their
outputs (resolution outcome, hourly series, target dates, temperature rule,
market-kind flags) are the inputs of the embedded model. -/

/-- A geocoding result: the fields read by `estimate_yes_probability`
(`place.get("name")`, `place.get("country")`); a missing/empty field is
modelled as the empty string, matching the source's `or` fallbacks. -/
structure Loc where
  name : String
  country : String
deriving DecidableEq, Repr

/-- The outcome of `_resolve_location`: either a failure message, or a
geocoded place together with the parsed city text. -/
inductive ResolveOutcome
  | failure (msg : String)
  | success (place : Loc) (parsedCity : String)
deriving DecidableEq, Repr

/-- The comparison operator of a temperature rule, normalized by
`_extract_temp_rule` to either `>=` or `<=`. -/
inductive TempOp
  | ge
  | le
deriving DecidableEq, Repr

/-- A temperature rule `(op, threshold°C)` as produced by `_extract_temp_rule`. -/
structure TempRule where
  op : TempOp
  threshold : ℚ
deriving DecidableEq, Repr

/-- The inputs of `estimate_yes_probability` once the HTTP collaborators and
the regex extractors have produced their values. -/
structure WxInput where
  resolve : ResolveOutcome
  times : List ℤ
  temps : List ℚ
  precipProbs : List ℚ
  targetDates : Option (List ℤ)
  tempRule : Option TempRule
  precipMarket : Bool
  snowMarket : Bool
  nowT : ℤ
  lookaheadHours : ℤ

/-- Python `max` over a nonempty list (the `[]` case is never reached by the
source, which guards every call with a nonemptiness check). -/
def maxOf : List ℚ → ℚ
  | [] => 0
  | x :: xs => xs.foldl max x

/-- Python `min` over a nonempty list. -/
def minOf : List ℚ → ℚ
  | [] => 0
  | x :: xs => xs.foldl min x

/-- The calendar date (UTC) of an hour-resolution timestamp: `ts.date()`. -/
def tsDate (t : ℤ) : ℤ := Int.fdiv t 24

/-- Embedding of `_pick_window`: select the forecast values whose timestamp
falls on one of the target dates, else those inside the lookahead window.
Python's `if target_dates:` treats an empty list like `None`. -/
def pickWindow (timeline : List ℤ) (values : List ℚ) (targetDates : Option (List ℤ))
    (nowT lookaheadHours : ℤ) : List ℚ :=
  let pairs := timeline.zip values
  let lookahead :=
    (pairs.filter fun tv => decide (nowT ≤ tv.1 ∧ tv.1 ≤ nowT + lookaheadHours)).map (·.2)
  match targetDates with
  | some ds =>
    if ds.isEmpty then lookahead
    else (pairs.filter fun tv => ds.contains (tsDate tv.1)).map (·.2)
  | none => lookahead

/-- Embedding of `_calc_confidence`. -/
def calcConfidence (prob : ℚ) (sampleCount : ℕ) (boost : ℚ) : ℚ :=
  let dispersion := |prob - 1/2| * 2
  let coverage := min ((sampleCount : ℚ) / 24) 1
  let confidence := (35/100 + 45/100 * dispersion + 1/5 * coverage) * boost
  max (1/20) (min confidence (49/50))

/-- Whether a temperature sample satisfies a rule. -/
def ruleSat (rule : TempRule) (v : ℚ) : Bool :=
  match rule.op with
  | .ge => rule.threshold ≤ v
  | .le => v ≤ rule.threshold

/-- Embedding of `_temperature_probability`, with `math.exp` abstracted as
`expQ`. -/
def temperatureProbability (expQ : ℚ → ℚ) (tempValues : List ℚ) (rule : TempRule) : ℚ :=
  if tempValues = [] then 1/2
  else
    let extreme :=
      match rule.op with
      | .ge => maxOf tempValues
      | .le => minOf tempValues
    let satisfied := tempValues.filter (ruleSat rule)
    let margin :=
      match rule.op with
      | .ge => extreme - rule.threshold
      | .le => rule.threshold - extreme
    let frequencyProb := (satisfied.length : ℚ) / (tempValues.length : ℚ)
    let marginProb := 1 / (1 + expQ (-margin / 2))
    max 0 (min (6/10 * marginProb + 4/10 * frequencyProb) 1)

/-- Embedding of `_precip_probability`. -/
def precipProbability (precipProbs : List ℚ) : ℚ :=
  if precipProbs = [] then 1/2
  else
    let hourly := precipProbs.map fun v => max 0 (min (v / 100) 1)
    let anyProb := 1 - hourly.foldl (fun acc p => acc * (1 - p)) 1
    let maxProb := maxOf hourly
    let avgProb := hourly.sum / (hourly.length : ℚ)
    max 0 (min (55/100 * maxProb + 35/100 * anyProb + 1/10 * avgProb) 1)

/-- The fraction of a (nonempty) temperature window at or below 0°C, used by
the snow branch of `estimate_yes_probability`. -/
def freezingShare (tempWindow : List ℚ) : ℚ :=
  ((tempWindow.filter fun t => decide (t ≤ 0)).length : ℚ) / (tempWindow.length : ℚ)

/-- Python `str.lower()` (ASCII case mapping suffices for this code base). -/
def pyLower (s : String) : String := ⟨s.data.map Char.toLower⟩

/-- Python `str.strip()` with no argument: strip whitespace from both ends. -/
def pyStripWs (s : String) : String :=
  let ws : Char → Bool := fun c => c == ' ' || c == '\t' || c == '\n' || c == '\r'
  ⟨((s.data.dropWhile ws).reverse.dropWhile ws).reverse⟩

/-- The location label `f"{name}, {country}".strip(", ")`: strip commas and
spaces from both ends. -/
def stripCommaSpace (s : String) : String :=
  let f : Char → Bool := fun c => c == ',' || c == ' '
  ⟨((s.data.dropWhile f).reverse.dropWhile f).reverse⟩

/-- The displayed location label, with the source's falsy-string fallbacks. -/
def locationLabel (place : Loc) (parsedCity : String) : String :=
  let normalizedCity := if place.name = "" then parsedCity else place.name
  stripCommaSpace (normalizedCity ++ ", " ++ place.country)

/-- The temperature branch of `estimate_yes_probability`. The rationale text
is carried without the source's printf-style numeric formatting (no claim
depends on rationale contents). -/
def tempPathResult (expQ : ℚ → ℚ) (inp : WxInput) (rule : TempRule) (label : String) :
    ℚ × ℚ × String :=
  let tempWindow := pickWindow inp.times inp.temps inp.targetDates inp.nowT inp.lookaheadHours
  let modelProb := temperatureProbability expQ tempWindow rule
  let confidence := calcConfidence modelProb tempWindow.length 1
  (modelProb, confidence, label ++ ": temp rule, points=" ++ toString tempWindow.length)

/-- The precipitation/snow branch of `estimate_yes_probability`. -/
def precipPathResult (inp : WxInput) (label : String) : ℚ × ℚ × String :=
  let precipWindow := pickWindow inp.times inp.precipProbs inp.targetDates inp.nowT inp.lookaheadHours
  if precipWindow = [] then
    (1/2, 1/5, label ++ ": no precipitation window available.")
  else
    let baseProb := precipProbability precipWindow
    let modelProb :=
      if inp.snowMarket then
        let tempWindow := pickWindow inp.times inp.temps inp.targetDates inp.nowT inp.lookaheadHours
        if tempWindow = [] then baseProb
        else baseProb * max (3/20) (min 1 (freezingShare tempWindow * (13/10)))
      else baseProb
    let confidenceBoost : ℚ := if inp.snowMarket then 3/4 else 17/20
    let confidence := calcConfidence modelProb precipWindow.length confidenceBoost
    (modelProb, confidence, label ++ ": proxy, points=" ++ toString precipWindow.length)

/-- Embedding of `estimate_yes_probability` (probability, confidence,
rationale), over the collaborator outputs collected in `WxInput`. -/
def estimateYesProbability (expQ : ℚ → ℚ) (inp : WxInput) : ℚ × ℚ × String :=
  match inp.resolve with
  | .failure msg => (1/2, 3/20, msg)
  | .success place parsedCity =>
    let label := locationLabel place parsedCity
    if inp.times = [] ∨ inp.temps = [] then
      (1/2, 1/5, "No hourly forecast returned for " ++ label ++ ".")
    else
      match inp.tempRule with
      | some rule =>
        if !inp.precipMarket && !inp.snowMarket then tempPathResult expQ inp rule label
        else precipPathResult inp label
      | none => precipPathResult inp label

/-! ## Paper-trading ledger (`src/bot/core/paper.py`)

State-file IO (`_load_state`/`_save_state`, path resolution) is out of the
embedding: `applyPaperTrading` maps a loaded `LedgerState` plus the run's
evaluations/alerts to the new state and the summary. `now` (the source's
`_now_iso()`) is an opaque timestamp string parameter. A positions dict is
embedded as a list of positions in insertion order with distinct market ids
(the only shape a Python dict can have); `dictInsert` replaces in place or
appends, as dict assignment does. -/

/-- A position side. The source stores `"YES"`/`"NO"` strings; these are the
only values it ever writes or compares against. -/
inductive Side
  | yes
  | no
deriving DecidableEq, Repr

/-- Embedding of `_signal_side`. -/
def signalSide (action : String) : Side :=
  if action = "BUY_YES" then .yes else .no

/-- Embedding of `_price_for_side`: clamp the YES price to `[0.001, 0.999]`,
then complement it for the NO side. -/
def priceForSide (yesPrice : ℚ) (side : Side) : ℚ :=
  match side with
  | .yes => max (1/1000) (min (999/1000) yesPrice)
  | .no => 1 - max (1/1000) (min (999/1000) yesPrice)

/-- A ledger position record (a value of the `positions` dict). -/
structure Position where
  marketId : String
  question : String
  side : Side
  qty : ℚ
  entryYesPrice : ℚ
  entryUnitPrice : ℚ
  costUsd : ℚ
  entryTs : String
  lastYesPrice : ℚ
  lastMarkValueUsd : ℚ
  lastMarkTs : String
deriving DecidableEq, Repr

/-- An evaluation row, restricted to the fields `apply_paper_trading` reads. -/
structure EvalRow where
  marketId : String
  marketYesProb : ℚ
  edgeBps : ℤ
deriving DecidableEq, Repr

/-- A trade record, OPEN or CLOSE, with the source's per-field rounding
applied at construction time. -/
inductive Trade
  | open (ts marketId question : String) (side : Side) (qty yesPrice costUsd : ℚ)
      (signalEdgeBps : ℤ) (signalConfidence : ℚ)
  | close (ts marketId question : String) (side : Side)
      (qty yesPrice proceedsUsd costUsd realizedPnlUsd : ℚ) (reason : String)
deriving DecidableEq, Repr

/-- The persisted ledger state, restricted to the keys `apply_paper_trading`
reads back (`cash_usd`, `positions`, `trades`). -/
structure LedgerState where
  cashUsd : ℚ
  positions : List Position
  trades : List Trade
deriving DecidableEq, Repr

/-- The paper-trading section of the configuration dict. -/
structure PaperCfg where
  positionSizeUsd : ℚ
  maxOpenPositions : ℕ
  closeEdgeBps : ℤ
deriving DecidableEq, Repr

/-- `{key(x): x for x in l}.get(k)`: the last element of `l` whose key is `k`. -/
def dictLast {α : Type} (keyOf : α → String) (l : List α) (k : String) : Option α :=
  l.foldl (fun acc x => if keyOf x = k then some x else acc) none

/-- Dict assignment `positions[market_id] = p`: replace in place (a Python
dict keeps the original insertion position of an existing key) or append. -/
def dictInsert (p : Position) : List Position → List Position
  | [] => [p]
  | q :: qs => if q.marketId = p.marketId then p :: qs else q :: dictInsert p qs

/-- The YES price used to value a position: the current evaluation row if the
market was evaluated this run, else the position's last known price. -/
def currentYesPrice (evals : List EvalRow) (p : Position) : ℚ :=
  match dictLast EvalRow.marketId evals p.marketId with
  | some row => row.marketYesProb
  | none => p.lastYesPrice

/-- The current mark value of a position (`_value_for_side` at the current
YES price). -/
def markValueOf (evals : List EvalRow) (p : Position) : ℚ :=
  p.qty * priceForSide (currentYesPrice evals p) p.side

/-- The context threaded through the close pass. -/
structure CloseCtx where
  alerts : List SignalT
  evals : List EvalRow
  closeEdgeBps : ℤ
  now : String

/-- Whether this run's signal for the position's market (if any) has the
opposite side. -/
def oppositeSignal (alerts : List SignalT) (p : Position) : Bool :=
  match dictLast SignalT.market_id alerts p.marketId with
  | some s => signalSide s.action ≠ p.side
  | none => false

/-- The close decision for one position: `opposite_signal` takes priority;
otherwise `edge_decay` if the current evaluation row shows the side's edge
past the closing threshold; otherwise the position stays open. -/
def closeReason (ctx : CloseCtx) (p : Position) : Option String :=
  if oppositeSignal ctx.alerts p then some "opposite_signal"
  else
    match dictLast EvalRow.marketId ctx.evals p.marketId with
    | some row =>
      if (p.side = Side.yes ∧ row.edgeBps < ctx.closeEdgeBps)
          ∨ (p.side = Side.no ∧ -ctx.closeEdgeBps < row.edgeBps) then some "edge_decay"
      else none
    | none => none

/-- The CLOSE trade record appended when a position closes. -/
def mkCloseTrade (ctx : CloseCtx) (p : Position) (reason : String) : Trade :=
  let value := markValueOf ctx.evals p
  Trade.close ctx.now p.marketId p.question p.side (roundTo 8 p.qty)
    (roundTo 6 (currentYesPrice ctx.evals p)) (roundTo 2 value) (roundTo 2 p.costUsd)
    (roundTo 2 (value - p.costUsd)) reason

/-- The in-place update of a surviving position's last-mark fields. -/
def markUpd (ctx : CloseCtx) (p : Position) : Position :=
  { p with lastYesPrice := currentYesPrice ctx.evals p,
           lastMarkValueUsd := roundTo 2 (markValueOf ctx.evals p),
           lastMarkTs := ctx.now }

/-- The close pass: iterate the positions (a snapshot, as the source's
`list(positions.items())`), crediting cash and recording a CLOSE trade for
each closing position and updating the marks of the others. Returns the new
cash, the surviving positions, and the CLOSE trades in order. -/
def closePass (ctx : CloseCtx) (cash : ℚ) : List Position → ℚ × List Position × List Trade
  | [] => (cash, [], [])
  | p :: rest =>
    match closeReason ctx p with
    | some reason =>
      ((closePass ctx (cash + markValueOf ctx.evals p) rest).1,
       (closePass ctx (cash + markValueOf ctx.evals p) rest).2.1,
       mkCloseTrade ctx p reason :: (closePass ctx (cash + markValueOf ctx.evals p) rest).2.2)
    | none =>
      ((closePass ctx cash rest).1,
       markUpd ctx p :: (closePass ctx cash rest).2.1,
       (closePass ctx cash rest).2.2)

/-- Stable insertion (descending `|edge_bps|`) used to embed Python's stable
`sorted(alerts, key=lambda s: abs(s.edge_bps), reverse=True)`: a stable sort
by a given key is unique, so any stable sort embeds `sorted` faithfully. -/
def insertByEdgeDesc (s : SignalT) : List SignalT → List SignalT
  | [] => [s]
  | t :: ts => if |s.edge_bps| < |t.edge_bps| then t :: insertByEdgeDesc s ts
               else s :: t :: ts

/-- Stable sort of the alerts by descending `|edge_bps|`. -/
def sortByEdgeDesc : List SignalT → List SignalT
  | [] => []
  | s :: rest => insertByEdgeDesc s (sortByEdgeDesc rest)

/-- The context threaded through the open pass. -/
structure OpenCtx where
  evals : List EvalRow
  positionSizeUsd : ℚ
  maxOpenPositions : ℕ
  now : String

/-- The mutable state of the open pass. -/
structure OpenSt where
  cash : ℚ
  positions : List Position
  opened : List Trade
deriving DecidableEq, Repr

/-- The entry YES price for a signal: the evaluation row's price if present,
else the signal's own market price. -/
def entryYesPriceFor (ctx : OpenCtx) (s : SignalT) : ℚ :=
  match dictLast EvalRow.marketId ctx.evals s.market_id with
  | some row => row.marketYesProb
  | none => s.market_yes_prob

/-- The position opened for a signal. -/
def newPosition (ctx : OpenCtx) (s : SignalT) : Position :=
  let yesPrice := entryYesPriceFor ctx s
  let side := signalSide s.action
  let unit := priceForSide yesPrice side
  { marketId := s.market_id, question := s.question, side := side,
    qty := ctx.positionSizeUsd / unit, entryYesPrice := yesPrice,
    entryUnitPrice := unit, costUsd := ctx.positionSizeUsd, entryTs := ctx.now,
    lastYesPrice := yesPrice, lastMarkValueUsd := ctx.positionSizeUsd,
    lastMarkTs := ctx.now }

/-- The OPEN trade record appended when a position opens. -/
def mkOpenTrade (ctx : OpenCtx) (s : SignalT) : Trade :=
  let yesPrice := entryYesPriceFor ctx s
  let side := signalSide s.action
  let unit := priceForSide yesPrice side
  Trade.open ctx.now s.market_id s.question side (roundTo 8 (ctx.positionSizeUsd / unit))
    (roundTo 6 yesPrice) (roundTo 2 ctx.positionSizeUsd) s.edge_bps s.confidence

/-- Opening one position: debit cash, insert the position, append the trade. -/
def openOne (ctx : OpenCtx) (s : SignalT) (st : OpenSt) : OpenSt :=
  { cash := st.cash - ctx.positionSizeUsd,
    positions := dictInsert (newPosition ctx s) st.positions,
    opened := st.opened ++ [mkOpenTrade ctx s] }

/-- Whether the signal's market already holds a position of the same side
(the open pass's `continue` condition). -/
def sameSideSkip (positions : List Position) (s : SignalT) : Bool :=
  match dictLast Position.marketId positions s.market_id with
  | some existing => existing.side = signalSide s.action
  | none => false

/-- The open pass over the sorted alerts: stop at the position cap, skip a
signal whose market already holds a same-side position, stop once cash cannot
cover a position, otherwise open. The checks happen in the source's order
(cap, then same-side skip, then cash). -/
def openPass (ctx : OpenCtx) : List SignalT → OpenSt → OpenSt
  | [], st => st
  | s :: rest, st =>
    if ctx.maxOpenPositions ≤ st.positions.length then st
    else if sameSideSkip st.positions s then openPass ctx rest st
    else if st.cash < ctx.positionSizeUsd then st
    else openPass ctx rest (openOne ctx s st)

/-- A marked-position row of the summary. -/
structure MarkedPos where
  marketId : String
  question : String
  side : Side
  qty : ℚ
  entryYesPrice : ℚ
  markYesPrice : ℚ
  costUsd : ℚ
  markValueUsd : ℚ
  unrealizedPnlUsd : ℚ
deriving DecidableEq, Repr

/-- The summary row for one open position. -/
def markedOf (evals : List EvalRow) (p : Position) : MarkedPos :=
  { marketId := p.marketId, question := p.question, side := p.side,
    qty := roundTo 8 p.qty, entryYesPrice := roundTo 6 p.entryYesPrice,
    markYesPrice := roundTo 6 (currentYesPrice evals p),
    costUsd := roundTo 2 p.costUsd, markValueUsd := roundTo 2 (markValueOf evals p),
    unrealizedPnlUsd := roundTo 2 (markValueOf evals p - p.costUsd) }

/-- The run summary (`summary` dict of `apply_paper_trading`). -/
structure Summary where
  cashUsd : ℚ
  equityUsd : ℚ
  openPositions : ℕ
  positionValueUsd : ℚ
  unrealizedPnlUsd : ℚ
  opened : List Trade
  closed : List Trade
  positions : List MarkedPos
deriving DecidableEq, Repr

/-- The result of one ledger update: the state that gets persisted and the
summary that gets returned. -/
structure ApplyResult where
  state : LedgerState
  summary : Summary
deriving DecidableEq, Repr

/-- `trades[-1000:]`. -/
def takeLast {α : Type} (n : ℕ) (l : List α) : List α := l.drop (l.length - n)

/-- Embedding of `apply_paper_trading`: close pass, open pass over the alerts
sorted by descending absolute edge, portfolio marks, summary, new state. -/
def applyPaperTrading (cfg : PaperCfg) (evaluations : List EvalRow)
    (alerts : List SignalT) (now : String) (state : LedgerState) : ApplyResult :=
  let cctx : CloseCtx :=
    { alerts := alerts, evals := evaluations, closeEdgeBps := cfg.closeEdgeBps, now := now }
  let cres := closePass cctx state.cashUsd state.positions
  let octx : OpenCtx :=
    { evals := evaluations, positionSizeUsd := cfg.positionSizeUsd,
      maxOpenPositions := cfg.maxOpenPositions, now := now }
  let ost := openPass octx (sortByEdgeDesc alerts)
    { cash := cres.1, positions := cres.2.1, opened := [] }
  let totalMarkValue := (ost.positions.map (markValueOf evaluations)).sum
  let totalCost := (ost.positions.map Position.costUsd).sum
  let marked := ost.positions.map (markedOf evaluations)
  let equity := ost.cash + totalMarkValue
  { state := { cashUsd := ost.cash, positions := ost.positions,
               trades := takeLast 1000 (state.trades ++ cres.2.2 ++ ost.opened) },
    summary := { cashUsd := roundTo 2 ost.cash, equityUsd := roundTo 2 equity,
                 openPositions := marked.length,
                 positionValueUsd := roundTo 2 totalMarkValue,
                 unrealizedPnlUsd := roundTo 2 (totalMarkValue - totalCost),
                 opened := ost.opened, closed := cres.2.2, positions := marked } }

/-! ## YES-price extraction (`src/bot/adapters/polymarket.py`)

The raw market record is a JSON-shaped value; `json.loads` and Python's
`float(str)` parser are external library functions, abstracted as parameters
`parseJson` and `parseFloat` (every theorem holds for arbitrary parsers). -/

/-- A JSON-shaped Python value, as far as `_extract_yes_price` inspects it.
A missing dict key (`dict.get` returning `None`) is conflated with `null`,
exactly as the source's `is not None` checks do. -/
inductive JVal
  | null
  | bool (b : Bool)
  | num (q : ℚ)
  | str (s : String)
  | arr (l : List JVal)

/-- Python truthiness of a `JVal`. -/
def jTruthy : JVal → Bool
  | .null => false
  | .bool b => b
  | .num q => q != 0
  | .str s => s ≠ ""
  | .arr l => !l.isEmpty

/-- Embedding of `_to_float(value, default)`: `float(...)` with
`TypeError`/`ValueError` mapped to the default. -/
def toFloatJ (parseFloat : String → Option ℚ) (v : JVal) (default : ℚ) : ℚ :=
  match v with
  | .num q => q
  | .bool b => if b then 1 else 0
  | .str s => (parseFloat s).getD default
  | _ => default

/-- Python `str(...)` of a `JVal`, as far as the comparison against `"yes"`
needs: a list's repr starts with a bracket, so like the source it can never
compare equal to `"yes"`. -/
def jStr : JVal → String
  | .null => "None"
  | .bool b => if b then "True" else "False"
  | .num q => toString q
  | .str s => s
  | .arr _ => "[...]"

/-- Whether a value is Python `None` (`is None` / `is not None` checks). -/
def isNullJ : JVal → Bool
  | .null => true
  | _ => false

/-- The raw market record, restricted to the keys `_extract_yes_price`
reads. Absent keys default to `null`. -/
structure MarketRec where
  yesPrice : JVal := .null
  yes_price : JVal := .null
  outcomes : JVal := .null
  outcomePrices : JVal := .null
  outcome_prices : JVal := .null

/-- The direct-field lookup `market.get("yesPrice") or market.get("yes_price")`
(Python `or`: the second operand whenever the first is falsy). -/
def directValue (m : MarketRec) : JVal :=
  if jTruthy m.yesPrice then m.yesPrice else m.yes_price

/-- The scan of the outcome/price pairs: return the price paired with the
first outcome whose trimmed, lowercased string form is `"yes"`, rejected if
out of `[0,1]`; `none` when no outcome matches. -/
def findYes (parseFloat : String → Option ℚ) : List (JVal × JVal) → Option ℚ
  | [] => none
  | (o, pr) :: rest =>
    if pyLower (pyStripWs (jStr o)) = "yes" then
      if 0 ≤ toFloatJ parseFloat pr (-1) ∧ toFloatJ parseFloat pr (-1) ≤ 1
      then some (toFloatJ parseFloat pr (-1)) else none
    else findYes parseFloat rest

/-- JSON-decode a string value (a failed decode becoming `None`); leave any
other value as it is. -/
def decodeJ (parseJson : String → Option JVal) : JVal → JVal
  | .str s => (parseJson s).getD .null
  | v => v

/-- The fallback branch of `_extract_yes_price`: decode the outcome and price
arrays (`outcomePrices or outcome_prices`, by Python `or` truthiness) and
match the `"Yes"` label. -/
def fallbackExtract (parseJson : String → Option JVal) (parseFloat : String → Option ℚ)
    (m : MarketRec) : Option ℚ :=
  match decodeJ parseJson m.outcomes,
      decodeJ parseJson (if jTruthy m.outcomePrices then m.outcomePrices else m.outcome_prices) with
  | .arr os, .arr ps => if os.length = ps.length then findYes parseFloat (os.zip ps) else none
  | _, _ => none

/-- Embedding of `_extract_yes_price`. -/
def extractYesPrice (parseJson : String → Option JVal) (parseFloat : String → Option ℚ)
    (m : MarketRec) : Option ℚ :=
  match directValue m with
  | .null => fallbackExtract parseJson parseFloat m
  | direct =>
    if 0 ≤ toFloatJ parseFloat direct (-1) ∧ toFloatJ parseFloat direct (-1) ≤ 1
    then some (toFloatJ parseFloat direct (-1)) else none

/-- Modelled from the claim's words (for comparison with `extractYesPrice`):
try the direct price field first and fall back to the outcomes array only
when the direct field is absent. -/
def extractYesPriceClaimed (parseJson : String → Option JVal) (parseFloat : String → Option ℚ)
    (m : MarketRec) : Option ℚ :=
  match (match m.yesPrice with | .null => m.yes_price | v => v) with
  | .null => fallbackExtract parseJson parseFloat m
  | d =>
    if 0 ≤ toFloatJ parseFloat d (-1) ∧ toFloatJ parseFloat d (-1) ≤ 1
    then some (toFloatJ parseFloat d (-1)) else none

/-! ## Scan engine (`src/bot/core/engine.py`)

The per-market pipeline call `estimate_yes_probability` (the only collaborator
inside the per-market `try`) is a parameter that either fails with an
exception or returns `(model_prob, confidence, rationale)`. -/

/-- The outcome of the per-market estimation pipeline. -/
inductive PipelineResult
  | error
  | ok (modelProb confidence : ℚ) (rationale : String)

/-- The per-candidate loop of `run_scan`: returns the evaluation rows, the
alert list, and the skipped count. A pipeline exception skips the market; a
successful evaluation always appends a row, and skips the market exactly when
`evaluate_signal` emits nothing. -/
def runScan (cfg : SignalCfg) (estimate : MarketC → PipelineResult) :
    List MarketC → List EvalRow × List SignalT × ℕ
  | [] => ([], [], 0)
  | m :: rest =>
    let out := runScan cfg estimate rest
    match estimate m with
    | .error => (out.1, out.2.1, out.2.2 + 1)
    | .ok modelProb confidence rationale =>
      let row : EvalRow :=
        { marketId := m.id, marketYesProb := roundTo 4 m.yesPrice,
          edgeBps := halfEvenRound ((modelProb - m.yesPrice) * 10000) }
      match evaluateSignal m modelProb confidence rationale cfg with
      | none => (row :: out.1, out.2.1, out.2.2 + 1)
      | some s => (row :: out.1, s :: out.2.1, out.2.2)

/-! ## Spec-side formulas (stated from the specification's words, for
comparison with the source-embedded definitions) -/

/-- Modelled from the spec: the signed margin of a temperature window — how
far the window's extreme value (max for `≥`, min for `≤`) clears the
threshold. -/
def specMargin (w : List ℚ) (rule : TempRule) : ℚ :=
  match rule.op with
  | .ge => maxOf w - rule.threshold
  | .le => rule.threshold - minOf w

/-- Modelled from the spec: the fraction of window samples satisfying the
rule. -/
def specFrequency (w : List ℚ) (rule : TempRule) : ℚ :=
  ((w.filter (ruleSat rule)).length : ℚ) / (w.length : ℚ)

/-! ## Rounding lemmas -/

theorem halfEvenRound_abs_le (q : ℚ) : |(halfEvenRound q : ℚ) - q| ≤ 1/2 := by
  unfold halfEvenRound
  have hfl : (⌊q⌋ : ℚ) ≤ q := Int.floor_le q
  have hfu : q < ⌊q⌋ + 1 := Int.lt_floor_add_one q
  by_cases h1 : q - (⌊q⌋ : ℚ) < 1/2
  · simp only [h1, if_true]
    rw [abs_sub_le_iff]
    constructor <;> linarith
  · simp only [h1, if_false]
    by_cases h2 : (1:ℚ)/2 < q - (⌊q⌋ : ℚ)
    · simp only [h2, if_true]
      rw [abs_sub_le_iff]
      push_cast
      constructor <;> linarith
    · simp only [h2, if_false]
      have heq : q - (⌊q⌋ : ℚ) = 1/2 := le_antisymm (not_lt.mp h2) (not_lt.mp h1)
      by_cases h3 : ⌊q⌋ % 2 = 0
      · simp only [h3, if_true]
        rw [abs_sub_le_iff]
        constructor <;> linarith
      · simp only [h3, if_false]
        rw [abs_sub_le_iff]
        push_cast
        constructor <;> linarith

theorem halfEvenRound_intCast (n : ℤ) : halfEvenRound (n : ℚ) = n := by
  unfold halfEvenRound
  simp [Int.floor_intCast]

theorem halfEvenRound_nonneg {q : ℚ} (h : 0 ≤ q) : 0 ≤ halfEvenRound q := by
  have hb := halfEvenRound_abs_le q
  rw [abs_sub_le_iff] at hb
  have : (-1 : ℤ) < halfEvenRound q := by
    by_contra hc
    push_neg at hc
    have : ((halfEvenRound q : ℤ) : ℚ) ≤ -1 := by exact_mod_cast hc
    linarith [hb.2]
  omega

theorem halfEvenRound_le_of_le {q : ℚ} {n : ℤ} (h : q ≤ n) : halfEvenRound q ≤ n := by
  have hb := halfEvenRound_abs_le q
  rw [abs_sub_le_iff] at hb
  have : ((halfEvenRound q : ℤ) : ℚ) < n + 1 := by
    have := hb.1
    -- cast cleanup
    linarith
  exact_mod_cast Int.lt_add_one_iff.mp (by exact_mod_cast this)

theorem roundTo_abs_le (n : ℕ) (q : ℚ) :
    |roundTo n q - q| ≤ 1 / (2 * (10 : ℚ) ^ n) := by
  unfold roundTo
  have hp : (0:ℚ) < (10 : ℚ) ^ n := by positivity
  have hb := halfEvenRound_abs_le (q * (10 : ℚ) ^ n)
  have : |((halfEvenRound (q * (10 : ℚ) ^ n) : ℚ)) / (10 : ℚ) ^ n - q|
      = |(halfEvenRound (q * (10 : ℚ) ^ n) : ℚ) - q * (10 : ℚ) ^ n| / (10 : ℚ) ^ n := by
    rw [← abs_of_pos hp, ← abs_div]
    congr 1
    field_simp
    ring
  rw [this]
  rw [div_le_div_iff₀ hp (by positivity)]
  calc |(halfEvenRound (q * (10 : ℚ) ^ n) : ℚ) - q * (10 : ℚ) ^ n| * (2 * (10 : ℚ) ^ n)
      ≤ (1/2) * (2 * (10 : ℚ) ^ n) := by
        apply mul_le_mul_of_nonneg_right hb
        positivity
    _ = 1 * (10 : ℚ) ^ n := by ring

/-! ## Probability-model branch lemmas -/

theorem estimate_tempPath (expQ : ℚ → ℚ) (inp : WxInput) (place : Loc) (pc : String)
    (rule : TempRule) (hres : inp.resolve = ResolveOutcome.success place pc)
    (ht : ¬(inp.times = [] ∨ inp.temps = [])) (hr : inp.tempRule = some rule)
    (hp : inp.precipMarket = false) (hs : inp.snowMarket = false) :
    estimateYesProbability expQ inp = tempPathResult expQ inp rule (locationLabel place pc) := by
  simp [estimateYesProbability, hres, hr, hp, hs, ht]

theorem estimate_precipPath (expQ : ℚ → ℚ) (inp : WxInput) (place : Loc) (pc : String)
    (hres : inp.resolve = ResolveOutcome.success place pc)
    (ht : ¬(inp.times = [] ∨ inp.temps = []))
    (hpath : inp.tempRule = none ∨ inp.precipMarket = true ∨ inp.snowMarket = true) :
    estimateYesProbability expQ inp = precipPathResult inp (locationLabel place pc) := by
  rcases hpath with h | h | h
  · simp [estimateYesProbability, hres, h, ht]
  · cases hr : inp.tempRule <;> simp [estimateYesProbability, hres, h, ht, hr]
  · cases hr : inp.tempRule <;> simp [estimateYesProbability, hres, h, ht, hr]

theorem precipPathResult_empty (inp : WxInput) (label : String)
    (hpw : pickWindow inp.times inp.precipProbs inp.targetDates inp.nowT inp.lookaheadHours = []) :
    precipPathResult inp label = (1/2, 1/5, label ++ ": no precipitation window available.") := by
  simp [precipPathResult, hpw]

theorem precipPathResult_no_snow (inp : WxInput) (label : String)
    (hpw : pickWindow inp.times inp.precipProbs inp.targetDates inp.nowT inp.lookaheadHours ≠ [])
    (hs : inp.snowMarket = false) :
    precipPathResult inp label =
      (precipProbability (pickWindow inp.times inp.precipProbs inp.targetDates inp.nowT inp.lookaheadHours),
       calcConfidence
         (precipProbability (pickWindow inp.times inp.precipProbs inp.targetDates inp.nowT inp.lookaheadHours))
         (pickWindow inp.times inp.precipProbs inp.targetDates inp.nowT inp.lookaheadHours).length (17/20),
       label ++ ": proxy, points=" ++
         toString (pickWindow inp.times inp.precipProbs inp.targetDates inp.nowT inp.lookaheadHours).length) := by
  simp [precipPathResult, hpw, hs]

theorem precipPathResult_snow (inp : WxInput) (label : String)
    (hpw : pickWindow inp.times inp.precipProbs inp.targetDates inp.nowT inp.lookaheadHours ≠ [])
    (hs : inp.snowMarket = true)
    (htw : pickWindow inp.times inp.temps inp.targetDates inp.nowT inp.lookaheadHours ≠ []) :
    precipPathResult inp label =
      (precipProbability (pickWindow inp.times inp.precipProbs inp.targetDates inp.nowT inp.lookaheadHours)
         * max (3/20) (min 1
             (freezingShare (pickWindow inp.times inp.temps inp.targetDates inp.nowT inp.lookaheadHours) * (13/10))),
       calcConfidence
         (precipProbability (pickWindow inp.times inp.precipProbs inp.targetDates inp.nowT inp.lookaheadHours)
           * max (3/20) (min 1
               (freezingShare (pickWindow inp.times inp.temps inp.targetDates inp.nowT inp.lookaheadHours) * (13/10))))
         (pickWindow inp.times inp.precipProbs inp.targetDates inp.nowT inp.lookaheadHours).length (3/4),
       label ++ ": proxy, points=" ++
         toString (pickWindow inp.times inp.precipProbs inp.targetDates inp.nowT inp.lookaheadHours).length) := by
  simp [precipPathResult, hpw, hs, htw]

theorem precipPathResult_snow_noTemps (inp : WxInput) (label : String)
    (hpw : pickWindow inp.times inp.precipProbs inp.targetDates inp.nowT inp.lookaheadHours ≠ [])
    (hs : inp.snowMarket = true)
    (htw : pickWindow inp.times inp.temps inp.targetDates inp.nowT inp.lookaheadHours = []) :
    precipPathResult inp label =
      (precipProbability (pickWindow inp.times inp.precipProbs inp.targetDates inp.nowT inp.lookaheadHours),
       calcConfidence
         (precipProbability (pickWindow inp.times inp.precipProbs inp.targetDates inp.nowT inp.lookaheadHours))
         (pickWindow inp.times inp.precipProbs inp.targetDates inp.nowT inp.lookaheadHours).length (3/4),
       label ++ ": proxy, points=" ++
         toString (pickWindow inp.times inp.precipProbs inp.targetDates inp.nowT inp.lookaheadHours).length) := by
  simp [precipPathResult, hpw, hs, htw]

/-! ## Bounds lemmas -/

theorem temperatureProbability_bounds (expQ : ℚ → ℚ) (w : List ℚ) (rule : TempRule) :
    0 ≤ temperatureProbability expQ w rule ∧ temperatureProbability expQ w rule ≤ 1 := by
  unfold temperatureProbability
  split
  · norm_num
  · exact ⟨le_max_left 0 _, max_le (by norm_num) (min_le_right _ _)⟩

theorem precipProbability_bounds (w : List ℚ) :
    0 ≤ precipProbability w ∧ precipProbability w ≤ 1 := by
  unfold precipProbability
  split
  · norm_num
  · exact ⟨le_max_left 0 _, max_le (by norm_num) (min_le_right _ _)⟩

theorem calcConfidence_bounds (prob : ℚ) (sampleCount : ℕ) (boost : ℚ) :
    1/20 ≤ calcConfidence prob sampleCount boost
      ∧ calcConfidence prob sampleCount boost ≤ 49/50 := by
  unfold calcConfidence
  exact ⟨le_max_left _ _, max_le (by norm_num) (min_le_right _ _)⟩

theorem snowMultiplier_bounds (fs : ℚ) :
    0 ≤ max (3/20) (min 1 (fs * (13/10))) ∧ max (3/20) (min 1 (fs * (13/10))) ≤ 1 := by
  constructor
  · exact le_trans (by norm_num) (le_max_left _ _)
  · exact max_le (by norm_num) (min_le_left _ _)

theorem precipPathResult_bounds (inp : WxInput) (label : String) :
    0 ≤ (precipPathResult inp label).1 ∧ (precipPathResult inp label).1 ≤ 1 ∧
    1/20 ≤ (precipPathResult inp label).2.1 ∧ (precipPathResult inp label).2.1 ≤ 49/50 := by
  by_cases hpw :
      pickWindow inp.times inp.precipProbs inp.targetDates inp.nowT inp.lookaheadHours = []
  · rw [precipPathResult_empty inp label hpw]
    norm_num
  · by_cases hs : inp.snowMarket = true
    · by_cases htw :
          pickWindow inp.times inp.temps inp.targetDates inp.nowT inp.lookaheadHours = []
      · rw [precipPathResult_snow_noTemps inp label hpw hs htw]
        exact ⟨(precipProbability_bounds _).1, (precipProbability_bounds _).2,
               (calcConfidence_bounds _ _ _).1, (calcConfidence_bounds _ _ _).2⟩
      · rw [precipPathResult_snow inp label hpw hs htw]
        refine ⟨?_, ?_, (calcConfidence_bounds _ _ _).1, (calcConfidence_bounds _ _ _).2⟩
        · exact mul_nonneg (precipProbability_bounds _).1 (snowMultiplier_bounds _).1
        · exact mul_le_one₀ (precipProbability_bounds _).2 (snowMultiplier_bounds _).1
            (snowMultiplier_bounds _).2
    · rw [precipPathResult_no_snow inp label hpw (by simpa using hs)]
      exact ⟨(precipProbability_bounds _).1, (precipProbability_bounds _).2,
             (calcConfidence_bounds _ _ _).1, (calcConfidence_bounds _ _ _).2⟩

theorem tempPathResult_bounds (expQ : ℚ → ℚ) (inp : WxInput) (rule : TempRule) (label : String) :
    0 ≤ (tempPathResult expQ inp rule label).1 ∧ (tempPathResult expQ inp rule label).1 ≤ 1 ∧
    1/20 ≤ (tempPathResult expQ inp rule label).2.1
      ∧ (tempPathResult expQ inp rule label).2.1 ≤ 49/50 := by
  unfold tempPathResult
  exact ⟨(temperatureProbability_bounds expQ _ rule).1,
         (temperatureProbability_bounds expQ _ rule).2,
         (calcConfidence_bounds _ _ _).1, (calcConfidence_bounds _ _ _).2⟩

/-- Claim C5: every probability estimate produced by `estimate_yes_probability`,
on every reachable branch (temperature path, precipitation path, snow path,
location-resolution failure, empty forecast, empty precipitation window),
satisfies `0 ≤ model_prob ≤ 1` and `0.05 ≤ confidence ≤ 0.98`. -/
theorem claim_C5 (expQ : ℚ → ℚ) (inp : WxInput) :
    0 ≤ (estimateYesProbability expQ inp).1 ∧ (estimateYesProbability expQ inp).1 ≤ 1 ∧
    1/20 ≤ (estimateYesProbability expQ inp).2.1
      ∧ (estimateYesProbability expQ inp).2.1 ≤ 49/50 := by
  cases hres : inp.resolve with
  | failure msg =>
    simp [estimateYesProbability, hres]
    norm_num
  | success place pc =>
    by_cases ht : inp.times = [] ∨ inp.temps = []
    · simp only [estimateYesProbability, hres, if_pos ht]
      norm_num
    · by_cases hpath : ∃ rule, inp.tempRule = some rule
          ∧ inp.precipMarket = false ∧ inp.snowMarket = false
      · obtain ⟨rule, hr, hp, hs⟩ := hpath
        rw [estimate_tempPath expQ inp place pc rule hres ht hr hp hs]
        exact tempPathResult_bounds expQ inp rule _
      · have hpath' : inp.tempRule = none ∨ inp.precipMarket = true ∨ inp.snowMarket = true := by
          cases hr : inp.tempRule with
          | none => exact Or.inl rfl
          | some rule =>
            cases hp : inp.precipMarket with
            | true => exact Or.inr (Or.inl rfl)
            | false =>
              cases hs : inp.snowMarket with
              | true => exact Or.inr (Or.inr rfl)
              | false => exact absurd ⟨rule, hr, hp, hs⟩ hpath
        rw [estimate_precipPath expQ inp place pc hres ht hpath']
        exact precipPathResult_bounds inp _

theorem foldl_mul_one_sub (l : List ℚ) (a : ℚ) :
    l.foldl (fun acc p => acc * (1 - p)) a = a * (l.map fun p => 1 - p).prod := by
  induction l generalizing a with
  | nil => simp
  | cons x xs ih =>
    simp only [List.foldl_cons, List.map_cons, List.prod_cons, ih]
    ring

/-- Claim C6: the temperature path is taken exactly when a temperature rule
was extracted and the question is neither a precipitation nor a snow market;
on that path, for every nonempty window the model probability is
`clamp(0.6·margin_prob + 0.4·frequency_prob, 0, 1)` with
`margin_prob = 1/(1 + exp(−margin/2))`, the margin being `max(window) −
threshold` for `≥` and `threshold − min(window)` for `≤` and the frequency
being the fraction of samples satisfying the rule; an empty window yields
exactly `0.5`. -/
theorem claim_C6 :
    (∀ (expQ : ℚ → ℚ) (inp : WxInput) (place : Loc) (pc : String) (rule : TempRule),
      inp.resolve = ResolveOutcome.success place pc → ¬(inp.times = [] ∨ inp.temps = []) →
      inp.tempRule = some rule → inp.precipMarket = false → inp.snowMarket = false →
      (estimateYesProbability expQ inp).1 =
        temperatureProbability expQ
          (pickWindow inp.times inp.temps inp.targetDates inp.nowT inp.lookaheadHours) rule)
    ∧ (∀ (expQ : ℚ → ℚ) (inp : WxInput) (place : Loc) (pc : String),
      inp.resolve = ResolveOutcome.success place pc → ¬(inp.times = [] ∨ inp.temps = []) →
      (inp.tempRule = none ∨ inp.precipMarket = true ∨ inp.snowMarket = true) →
      estimateYesProbability expQ inp = precipPathResult inp (locationLabel place pc))
    ∧ (∀ (expQ : ℚ → ℚ) (w : List ℚ) (rule : TempRule), w ≠ [] →
      temperatureProbability expQ w rule =
        max 0 (min (6/10 * (1 / (1 + expQ (-specMargin w rule / 2)))
          + 4/10 * specFrequency w rule) 1))
    ∧ (∀ (expQ : ℚ → ℚ) (rule : TempRule), temperatureProbability expQ [] rule = 1/2) := by
  refine ⟨?_, ?_, ?_, ?_⟩
  · intro expQ inp place pc rule hres ht hr hp hs
    rw [estimate_tempPath expQ inp place pc rule hres ht hr hp hs]
    rfl
  · intro expQ inp place pc hres ht hpath
    exact estimate_precipPath expQ inp place pc hres ht hpath
  · intro expQ w rule h
    obtain ⟨op, thr⟩ := rule
    cases op
    · unfold temperatureProbability specMargin specFrequency
      rw [if_neg h]
    · unfold temperatureProbability specMargin specFrequency
      rw [if_neg h]
  · intro expQ rule
    rfl

/-- Witness for claim C6 at a concrete window and rule. -/
theorem claim_C6_witness :
    ([20] : List ℚ) ≠ [] ∧
    temperatureProbability (fun _ => 1) [20] ⟨TempOp.ge, 25⟩ =
      max 0 (min (6/10 * (1 / (1 + (fun _ => (1:ℚ)) (-specMargin [20] ⟨TempOp.ge, 25⟩ / 2)))
        + 4/10 * specFrequency [20] ⟨TempOp.ge, 25⟩) 1) :=
  ⟨by decide, claim_C6.2.2.1 (fun _ => 1) [20] ⟨TempOp.ge, 25⟩ (by decide)⟩

/-- Claim C7: on the precipitation/snow path, each nonempty-window sample is
normalized to `[0,1]` by dividing by 100 and clamping, and the base
probability is `clamp(0.55·max_prob + 0.35·any_prob + 0.10·avg_prob, 0, 1)`
with `any_prob = 1 − Π(1 − pᵢ)`; for snow markets the base is additionally
multiplied by `clamp(freezing_share × 1.3, 0.15, 1.0)` where the freezing
share is the fraction of the temperature window at or below 0°C selected by
the same window rule; an empty precipitation window yields `0.5` with low
confidence and never falls through to the temperature path. -/
theorem claim_C7 :
    (∀ w : List ℚ, w ≠ [] →
      precipProbability w =
        max 0 (min (55/100 * maxOf (w.map fun v => max 0 (min (v/100) 1))
          + 35/100 * (1 - ((w.map fun v => max 0 (min (v/100) 1)).map fun p => 1 - p).prod)
          + 1/10 * ((w.map fun v => max 0 (min (v/100) 1)).sum
              / ((w.map fun v => max 0 (min (v/100) 1)).length : ℚ))) 1))
    ∧ (∀ (expQ : ℚ → ℚ) (inp : WxInput) (place : Loc) (pc : String),
      inp.resolve = ResolveOutcome.success place pc → ¬(inp.times = [] ∨ inp.temps = []) →
      inp.snowMarket = true →
      pickWindow inp.times inp.precipProbs inp.targetDates inp.nowT inp.lookaheadHours ≠ [] →
      pickWindow inp.times inp.temps inp.targetDates inp.nowT inp.lookaheadHours ≠ [] →
      (estimateYesProbability expQ inp).1 =
        precipProbability (pickWindow inp.times inp.precipProbs inp.targetDates inp.nowT inp.lookaheadHours)
          * max (3/20) (min 1
              (freezingShare (pickWindow inp.times inp.temps inp.targetDates inp.nowT inp.lookaheadHours) * (13/10)))
      ∧ freezingShare (pickWindow inp.times inp.temps inp.targetDates inp.nowT inp.lookaheadHours) =
          (((pickWindow inp.times inp.temps inp.targetDates inp.nowT inp.lookaheadHours).filter
              fun t => decide (t ≤ 0)).length : ℚ)
            / ((pickWindow inp.times inp.temps inp.targetDates inp.nowT inp.lookaheadHours).length : ℚ))
    ∧ (∀ (expQ : ℚ → ℚ) (inp : WxInput) (place : Loc) (pc : String),
      inp.resolve = ResolveOutcome.success place pc → ¬(inp.times = [] ∨ inp.temps = []) →
      (inp.tempRule = none ∨ inp.precipMarket = true ∨ inp.snowMarket = true) →
      pickWindow inp.times inp.precipProbs inp.targetDates inp.nowT inp.lookaheadHours = [] →
      (estimateYesProbability expQ inp).1 = 1/2 ∧ (estimateYesProbability expQ inp).2.1 = 1/5) := by
  refine ⟨?_, ?_, ?_⟩
  · intro w h
    unfold precipProbability
    rw [if_neg h]
    simp only [foldl_mul_one_sub, one_mul]
  · intro expQ inp place pc hres ht hs hpw htw
    rw [estimate_precipPath expQ inp place pc hres ht (Or.inr (Or.inr hs))]
    rw [precipPathResult_snow inp (locationLabel place pc) hpw hs htw]
    exact ⟨rfl, rfl⟩
  · intro expQ inp place pc hres ht hpath hpw
    rw [estimate_precipPath expQ inp place pc hres ht hpath]
    rw [precipPathResult_empty inp (locationLabel place pc) hpw]
    exact ⟨rfl, rfl⟩

/-- Witness for claim C7 at a concrete precipitation window. -/
theorem claim_C7_witness :
    ([60] : List ℚ) ≠ [] ∧
    precipProbability [60] =
      max 0 (min (55/100 * maxOf (([60] : List ℚ).map fun v => max 0 (min (v/100) 1))
        + 35/100 * (1 - ((([60] : List ℚ).map fun v => max 0 (min (v/100) 1)).map fun p => 1 - p).prod)
        + 1/10 * ((([60] : List ℚ).map fun v => max 0 (min (v/100) 1)).sum
            / ((([60] : List ℚ).map fun v => max 0 (min (v/100) 1)).length : ℚ))) 1) :=
  ⟨by decide, claim_C7.1 [60] (by decide)⟩

/-! ## Signal-evaluator lemmas -/

theorem roundTo_nonneg (n : ℕ) {q : ℚ} (h : 0 ≤ q) : 0 ≤ roundTo n q := by
  unfold roundTo
  apply div_nonneg _ (by positivity)
  exact_mod_cast halfEvenRound_nonneg (by positivity)

theorem roundTo_le_one (n : ℕ) {q : ℚ} (h : q ≤ 1) : roundTo n q ≤ 1 := by
  unfold roundTo
  rw [div_le_one (by positivity)]
  have key : halfEvenRound (q * (10 : ℚ) ^ n) ≤ (10 : ℤ) ^ n := by
    apply halfEvenRound_le_of_le
    push_cast
    have hc : (0:ℚ) ≤ (10:ℚ) ^ n := by positivity
    have := mul_le_mul_of_nonneg_right h hc
    linarith
  calc ((halfEvenRound (q * (10 : ℚ) ^ n) : ℤ) : ℚ) ≤ (((10 : ℤ) ^ n : ℤ) : ℚ) := by
        exact_mod_cast key
    _ = (10 : ℚ) ^ n := by push_cast; ring

theorem edge_round_close (a b : ℚ) :
    |halfEvenRound ((a - b) * 10000)
      - halfEvenRound ((roundTo 4 a - roundTo 4 b) * 10000)| ≤ 1 := by
  have hten : ((10 : ℚ) ^ (4 : ℕ)) = 10000 := by norm_num
  have hAB : (roundTo 4 a - roundTo 4 b) * 10000
      = ((halfEvenRound (a * 10000) - halfEvenRound (b * 10000) : ℤ) : ℚ) := by
    unfold roundTo
    rw [hten]
    push_cast
    field_simp
  rw [hAB, halfEvenRound_intCast]
  have h1 := halfEvenRound_abs_le ((a - b) * 10000)
  have h2 := halfEvenRound_abs_le (a * 10000)
  have h3 := halfEvenRound_abs_le (b * 10000)
  rw [abs_sub_le_iff] at h1 h2 h3
  have key : |((halfEvenRound ((a - b) * 10000) : ℤ) : ℚ)
      - ((halfEvenRound (a * 10000) - halfEvenRound (b * 10000) : ℤ) : ℚ)| ≤ 3/2 := by
    rw [abs_sub_le_iff]
    push_cast
    constructor <;> nlinarith [h1.1, h1.2, h2.1, h2.2, h3.1, h3.2]
  rw [← Int.cast_sub, ← Int.cast_abs] at key
  by_contra hcon
  push_neg at hcon
  have h2le : (2 : ℤ) ≤ |halfEvenRound ((a - b) * 10000)
      - (halfEvenRound (a * 10000) - halfEvenRound (b * 10000))| := hcon
  have : ((2 : ℤ) : ℚ) ≤ 3/2 := le_trans (by exact_mod_cast h2le) key
  norm_num at this

/-- Claim C2 counterexample: an emitted signal whose stored (4-decimal
rounded) confidence is strictly below the configured `min_confidence`,
refuting the stored-field guarantee `confidence ≥ min_confidence`. -/
theorem claim_C2_counterexample :
    ((evaluateSignal ⟨"m1", "q", 1/10, 0⟩ (9/10) (12344/100000) "r"
        ⟨100, 12344/100000⟩).map SignalT.confidence) = some (617/5000)
    ∧ ((617 : ℚ)/5000 < 12344/100000) := by
  constructor
  · norm_num [evaluateSignal, halfEvenRound, roundTo]
  · norm_num

/-- Claim C2 (amended): `evaluate_signal` returns no signal exactly when
`confidence < min_confidence` or `|round((model_prob − market_yes_prob) ×
10000)| < min_edge_bps`; every emitted signal stores the 4-decimal roundings
of its probability inputs (so `0 ≤ market_yes_prob ≤ 1` holds on stored
fields whenever the input price is in `[0,1]`), its input confidence
satisfies `confidence ≥ min_confidence` — the stored rounding only within
`1/20000` of that — its edge satisfies `|edge_bps| ≥ min_edge_bps` and
`edge_bps = round((model_prob − market_yes_prob) × 10000)` on the unrounded
inputs (within 1 bps of the same formula on the stored fields), and the
action is `BUY_YES` when `edge_bps ≥ min_edge_bps`, else `BUY_NO` when
`edge_bps ≤ −min_edge_bps`. -/
theorem claim_C2 (market : MarketC) (modelProb confidence : ℚ)
    (rationale : String) (cfg : SignalCfg) :
    (evaluateSignal market modelProb confidence rationale cfg = none ↔
      confidence < cfg.minConfidence ∨
      |halfEvenRound ((modelProb - market.yesPrice) * 10000)| < cfg.minEdgeBps)
    ∧ (∀ s, evaluateSignal market modelProb confidence rationale cfg = some s →
      (0 ≤ market.yesPrice → market.yesPrice ≤ 1 →
        0 ≤ s.market_yes_prob ∧ s.market_yes_prob ≤ 1)
      ∧ cfg.minConfidence ≤ confidence
      ∧ s.confidence = roundTo 4 confidence
      ∧ cfg.minConfidence - 1/20000 ≤ s.confidence
      ∧ cfg.minEdgeBps ≤ |s.edge_bps|
      ∧ s.edge_bps = halfEvenRound ((modelProb - market.yesPrice) * 10000)
      ∧ |s.edge_bps - halfEvenRound ((s.model_yes_prob - s.market_yes_prob) * 10000)| ≤ 1
      ∧ (s.action = "BUY_YES" ↔ cfg.minEdgeBps ≤ s.edge_bps)
      ∧ (s.action = "BUY_NO" ↔
          s.edge_bps ≤ -cfg.minEdgeBps ∧ ¬cfg.minEdgeBps ≤ s.edge_bps)) := by
  simp only [evaluateSignal]
  constructor
  · split
    · rename_i hconf
      exact iff_of_true rfl (Or.inl hconf)
    · rename_i hconf
      split
      · rename_i hge
        apply iff_of_false (by simp)
        rintro (h | h)
        · exact hconf h
        · have := le_abs_self (halfEvenRound ((modelProb - market.yesPrice) * 10000))
          omega
      · rename_i hge
        split
        · rename_i hle
          apply iff_of_false (by simp)
          rintro (h | h)
          · exact hconf h
          · have := neg_abs_le (halfEvenRound ((modelProb - market.yesPrice) * 10000))
            omega
        · rename_i hle
          apply iff_of_true rfl
          refine Or.inr (abs_lt.mpr ⟨?_, ?_⟩) <;> omega
  · intro s hs
    revert hs
    split
    · rename_i hconf
      intro hs
      exact absurd hs (by simp)
    · rename_i hconf
      push_neg at hconf
      split
      · rename_i hge
        intro hs
        rw [Option.some.injEq] at hs
        subst hs
        refine ⟨fun h0 h1 => ⟨roundTo_nonneg 4 h0, roundTo_le_one 4 h1⟩, hconf, rfl, ?_, ?_,
                rfl, ?_, ?_, ?_⟩
        · have := roundTo_abs_le 4 confidence
          rw [abs_sub_le_iff] at this
          have h4 : (2 * (10:ℚ)^(4:ℕ)) = 20000 := by norm_num
          rw [h4] at this
          have := this.2
          simp only
          linarith
        · calc cfg.minEdgeBps ≤ halfEvenRound ((modelProb - market.yesPrice) * 10000) := hge
            _ ≤ |halfEvenRound ((modelProb - market.yesPrice) * 10000)| := le_abs_self _
        · exact edge_round_close modelProb market.yesPrice
        · exact iff_of_true rfl hge
        · refine iff_of_false (by simp) ?_
          rintro ⟨-, hno⟩
          exact hno hge
      · rename_i hge
        split
        · rename_i hle
          intro hs
          rw [Option.some.injEq] at hs
          subst hs
          refine ⟨fun h0 h1 => ⟨roundTo_nonneg 4 h0, roundTo_le_one 4 h1⟩, hconf, rfl, ?_, ?_,
                  rfl, ?_, ?_, ?_⟩
          · have := roundTo_abs_le 4 confidence
            rw [abs_sub_le_iff] at this
            have h4 : (2 * (10:ℚ)^(4:ℕ)) = 20000 := by norm_num
            rw [h4] at this
            have := this.2
            simp only
            linarith
          · show cfg.minEdgeBps ≤ |halfEvenRound ((modelProb - market.yesPrice) * 10000)|
            have := neg_abs_le (halfEvenRound ((modelProb - market.yesPrice) * 10000))
            omega
          · exact edge_round_close modelProb market.yesPrice
          · exact iff_of_false (by simp) (fun h => hge h)
          · exact iff_of_true rfl ⟨hle, hge⟩
        · rename_i hle
          intro hs
          exact absurd hs (by simp)

/-! ## YES-price extraction lemmas -/

theorem isNullJ_eq_true {v : JVal} : isNullJ v = true ↔ v = JVal.null := by
  cases v <;> simp [isNullJ]

theorem extractYesPrice_eq (pj : String → Option JVal) (pf : String → Option ℚ)
    (m : MarketRec) :
    extractYesPrice pj pf m =
      if isNullJ (directValue m) = true then fallbackExtract pj pf m
      else if 0 ≤ toFloatJ pf (directValue m) (-1) ∧ toFloatJ pf (directValue m) (-1) ≤ 1
           then some (toFloatJ pf (directValue m) (-1)) else none := by
  cases hdv : directValue m <;> simp [extractYesPrice, isNullJ, hdv]

theorem findYes_mem_unit (pf : String → Option ℚ) :
    ∀ (l : List (JVal × JVal)) (q : ℚ), findYes pf l = some q → 0 ≤ q ∧ q ≤ 1 := by
  intro l
  induction l with
  | nil => intro q h; exact absurd h (by simp [findYes])
  | cons hd tl ih =>
    obtain ⟨o, p⟩ := hd
    intro q h
    rw [findYes] at h
    split at h
    · split at h
      · rename_i hcond
        rw [Option.some.injEq] at h
        subst h
        exact hcond
      · exact absurd h (by simp)
    · exact ih q h

theorem fallbackExtract_mem_unit (pj : String → Option JVal) (pf : String → Option ℚ)
    (m : MarketRec) (q : ℚ) (h : fallbackExtract pj pf m = some q) : 0 ≤ q ∧ q ≤ 1 := by
  unfold fallbackExtract at h
  split at h
  · split at h
    · exact findYes_mem_unit pf _ q h
    · exact absurd h (by simp)
  · exact absurd h (by simp)

/-- Claim C9 counterexample: a market whose direct `yesPrice` field is present
with the valid value `0` is nevertheless resolved through the outcomes
fallback (Python `or` treats `0` as absent), while the claim's reading —
fall back only when the direct field is absent — would return the direct `0`. -/
theorem claim_C9_counterexample :
    extractYesPrice (fun _ => none) (fun _ => none)
      { yesPrice := JVal.num 0, outcomes := JVal.arr [JVal.str "Yes"],
        outcomePrices := JVal.arr [JVal.num 1] } = some 1
    ∧ extractYesPriceClaimed (fun _ => none) (fun _ => none)
      { yesPrice := JVal.num 0, outcomes := JVal.arr [JVal.str "Yes"],
        outcomePrices := JVal.arr [JVal.num 1] } = some 0 := by
  constructor
  · decide
  · decide

/-- Claim C9 (amended): YES-price extraction tries the direct price field
first and falls back to matching the (possibly JSON-encoded) outcomes array
against a `"Yes"` label case-insensitively, reading the same index of the
paired price array — but the fallback is taken whenever the direct fields are
absent or falsy (e.g. a `0` price or empty string), not only when absent; any
extracted value outside `[0,1]` causes the market to be rejected, so every
accepted candidate has `yes_price` in `[0,1]`. -/
theorem claim_C9 :
    (∀ (pj : String → Option JVal) (pf : String → Option ℚ) (m : MarketRec) (q : ℚ),
      extractYesPrice pj pf m = some q → 0 ≤ q ∧ q ≤ 1)
    ∧ (∀ (pj : String → Option JVal) (pf : String → Option ℚ) (m : MarketRec),
      jTruthy m.yesPrice = false → m.yes_price = JVal.null →
      extractYesPrice pj pf m = fallbackExtract pj pf m)
    ∧ (∀ (pj : String → Option JVal) (pf : String → Option ℚ) (m : MarketRec),
      directValue m ≠ JVal.null →
      extractYesPrice pj pf m =
        (if 0 ≤ toFloatJ pf (directValue m) (-1) ∧ toFloatJ pf (directValue m) (-1) ≤ 1
         then some (toFloatJ pf (directValue m) (-1)) else none))
    ∧ (∀ (pf : String → Option ℚ) (o p : JVal) (rest : List (JVal × JVal)),
      pyLower (pyStripWs (jStr o)) = "yes" →
      findYes pf ((o, p) :: rest) =
        (if 0 ≤ toFloatJ pf p (-1) ∧ toFloatJ pf p (-1) ≤ 1
         then some (toFloatJ pf p (-1)) else none))
    ∧ (∀ (pf : String → Option ℚ) (o p : JVal) (rest : List (JVal × JVal)),
      pyLower (pyStripWs (jStr o)) ≠ "yes" →
      findYes pf ((o, p) :: rest) = findYes pf rest) := by
  refine ⟨?_, ?_, ?_, ?_, ?_⟩
  · intro pj pf m q h
    rw [extractYesPrice_eq] at h
    split at h
    · exact fallbackExtract_mem_unit pj pf m q h
    · split at h
      · rename_i hcond
        rw [Option.some.injEq] at h
        subst h
        exact hcond
      · exact absurd h (by simp)
  · intro pj pf m hfalsy hnull
    have hdv : directValue m = JVal.null := by
      unfold directValue
      rw [hfalsy]
      simpa using hnull
    rw [extractYesPrice_eq, if_pos (by rw [hdv]; rfl)]
  · intro pj pf m hdv
    rw [extractYesPrice_eq, if_neg ?_]
    intro hcon
    exact hdv (isNullJ_eq_true.mp hcon)
  · intro pf o p rest hyes
    rw [findYes, if_pos hyes]
  · intro pf o p rest hno
    rw [findYes, if_neg hno]

/-- Witness for claim C9: a market carrying `yes_price = 1` is accepted with
a price inside the unit interval. -/
theorem claim_C9_witness : (0 : ℚ) ≤ 1 ∧ (1 : ℚ) ≤ 1 :=
  claim_C9.1 (fun _ => none) (fun _ => none) { yes_price := JVal.num 1 } 1 (by decide)

/-- Witness for claim C2 at the spec's scenario (yes-price 0.40, model 0.75,
min edge 300): the emitted BUY_YES signal's edge passes the threshold. -/
theorem claim_C2_witness :
    (⟨300, 1/2⟩ : SignalCfg).minEdgeBps ≤ |(3500 : ℤ)| :=
  ((claim_C2 ⟨"m", "q", 2/5, 0⟩ (3/4) (9/10) "r" ⟨300, 1/2⟩).2
    { market_id := "m", question := "q", action := "BUY_YES", market_yes_prob := 2/5,
      model_yes_prob := 3/4, edge_bps := 3500, confidence := 9/10, liquidity := 0,
      rationale := "r" } (by norm_num [evaluateSignal, halfEvenRound, roundTo])).2.2.2.2.1

/-! ## Scan-engine counting -/

/-- Claim C10: for every run of `run_scan`, the emitted counters satisfy
`scanned_count = alerts_count + skipped_count`: every candidate market either
contributes exactly one alert or increments `skipped` by one, and `skipped`
counts both the markets whose pipeline raised an exception and the markets
that were evaluated successfully yet produced no signal. -/
theorem claim_C10 (cfg : SignalCfg) (estimate : MarketC → PipelineResult)
    (cands : List MarketC) :
    cands.length = (runScan cfg estimate cands).2.1.length + (runScan cfg estimate cands).2.2
    ∧ (runScan cfg estimate cands).2.2 =
        (cands.countP fun m => match estimate m with
          | .error => true
          | .ok mp c r => (evaluateSignal m mp c r cfg).isNone)
    ∧ (runScan cfg estimate cands).2.2 =
        (cands.countP fun m => match estimate m with
          | .error => true
          | .ok _ _ _ => false)
      + (cands.countP fun m => match estimate m with
          | .error => false
          | .ok mp c r => (evaluateSignal m mp c r cfg).isNone) := by
  induction cands with
  | nil => exact ⟨rfl, rfl, rfl⟩
  | cons m rest ih =>
    obtain ⟨ih1, ih2, ih3⟩ := ih
    rw [runScan]
    cases hm : estimate m with
    | error =>
      simp only [List.countP_cons, hm, List.length_cons]
      refine ⟨by omega, by simpa using ih2, by simp; omega⟩
    | ok mp c r =>
      cases hs : evaluateSignal m mp c r cfg with
      | none =>
        simp only [List.countP_cons, hm, hs, List.length_cons]
        refine ⟨by omega, by simpa using ih2, by simp; omega⟩
      | some sig =>
        simp only [List.countP_cons, hm, hs, List.length_cons]
        refine ⟨by omega, by simpa using ih2, by simp; omega⟩

/-! ## Ledger accounting: claim C1 -/

theorem roundTo2_add_bound (a b : ℚ) :
    |roundTo 2 (a + b) - (roundTo 2 a + roundTo 2 b)| ≤ 1/100 := by
  have hten : ((10 : ℚ) ^ (2 : ℕ)) = 100 := by norm_num
  have hexp : roundTo 2 (a + b) - (roundTo 2 a + roundTo 2 b)
      = ((halfEvenRound ((a + b) * 100) - halfEvenRound (a * 100)
          - halfEvenRound (b * 100) : ℤ) : ℚ) / 100 := by
    unfold roundTo
    rw [hten]
    push_cast
    field_simp
    ring
  have h1 := halfEvenRound_abs_le ((a + b) * 100)
  have h2 := halfEvenRound_abs_le (a * 100)
  have h3 := halfEvenRound_abs_le (b * 100)
  rw [abs_sub_le_iff] at h1 h2 h3
  have key : |((halfEvenRound ((a + b) * 100) - halfEvenRound (a * 100)
      - halfEvenRound (b * 100) : ℤ) : ℚ)| ≤ 3/2 := by
    rw [abs_le]
    push_cast
    constructor <;> nlinarith [h1.1, h1.2, h2.1, h2.2, h3.1, h3.2]
  have hint : |halfEvenRound ((a + b) * 100) - halfEvenRound (a * 100)
      - halfEvenRound (b * 100)| ≤ 1 := by
    by_contra hcon
    push_neg at hcon
    have h2le : (2 : ℤ) ≤ |halfEvenRound ((a + b) * 100) - halfEvenRound (a * 100)
        - halfEvenRound (b * 100)| := hcon
    rw [← Int.cast_abs] at key
    have : ((2 : ℤ) : ℚ) ≤ 3/2 := le_trans (by exact_mod_cast h2le) key
    norm_num at this
  rw [hexp, abs_div]
  rw [abs_of_pos (show (0:ℚ) < 100 by norm_num)]
  rw [div_le_div_iff₀ (by norm_num) (by norm_num)]
  have : |((halfEvenRound ((a + b) * 100) - halfEvenRound (a * 100)
      - halfEvenRound (b * 100) : ℤ) : ℚ)| ≤ 1 := by
    rw [← Int.cast_abs]
    exact_mod_cast hint
  nlinarith [this]

/-- Claim C1: at the end of every ledger update, for every ledger state and
every evaluation/signal input, the reported equity equals the reported cash
plus the reported aggregate open-position mark value, to within 2-decimal
rounding of each reported figure: `|equity_usd − (cash_usd +
position_value_usd)| ≤ 0.01`. -/
theorem claim_C1 (cfg : PaperCfg) (evaluations : List EvalRow) (alerts : List SignalT)
    (now : String) (state : LedgerState) :
    |(applyPaperTrading cfg evaluations alerts now state).summary.equityUsd
      - ((applyPaperTrading cfg evaluations alerts now state).summary.cashUsd
        + (applyPaperTrading cfg evaluations alerts now state).summary.positionValueUsd)|
      ≤ 1/100 := by
  simp only [applyPaperTrading]
  exact roundTo2_add_bound _ _

/-! ## Dict-lookup lemmas -/

theorem dictLast_go {α : Type} (keyOf : α → String) (k : String) :
    ∀ (l : List α) (acc : Option α),
      l.foldl (fun a x => if keyOf x = k then some x else a) acc
        = match dictLast keyOf l k with
          | some y => some y
          | none => acc := by
  intro l
  induction l with
  | nil => intro acc; rfl
  | cons x xs ih =>
    intro acc
    show xs.foldl _ (if keyOf x = k then some x else acc) = _
    rw [ih]
    show _ = match xs.foldl _ (if keyOf x = k then some x else none) with
      | some y => some y
      | none => acc
    rw [ih (if keyOf x = k then some x else none)]
    cases dictLast keyOf xs k with
    | some y => rfl
    | none => by_cases hc : keyOf x = k <;> simp [hc]

theorem dictLast_not_mem {α : Type} (keyOf : α → String) (k : String)
    (l : List α) (h : k ∉ l.map keyOf) : dictLast keyOf l k = none := by
  induction l with
  | nil => rfl
  | cons x xs ih =>
    have hk : keyOf x ≠ k := fun he => h (by simp [he.symm])
    show xs.foldl _ (if keyOf x = k then some x else none) = none
    rw [dictLast_go]
    rw [ih (fun hm => h (by simp [hm]))]
    simp [hk]

theorem dictLast_nodup_mem {α : Type} (keyOf : α → String) (l : List α) (x : α)
    (hnd : (l.map keyOf).Nodup) (hx : x ∈ l) : dictLast keyOf l (keyOf x) = some x := by
  induction l with
  | nil => cases hx
  | cons y ys ih =>
    rw [List.map_cons, List.nodup_cons] at hnd
    show ys.foldl _ (if keyOf y = keyOf x then some y else none) = some x
    rw [dictLast_go]
    rcases List.mem_cons.mp hx with rfl | hmem
    · rw [dictLast_not_mem keyOf (keyOf x) ys hnd.1]
      simp
    · rw [ih hnd.2 hmem]

/-! ## Close-pass lemmas -/

theorem closeReason_opposite (ctx : CloseCtx) (p : Position) (s : SignalT)
    (hnd : (ctx.alerts.map SignalT.market_id).Nodup) (hs : s ∈ ctx.alerts)
    (hid : s.market_id = p.marketId) (hside : signalSide s.action ≠ p.side) :
    closeReason ctx p = some "opposite_signal" := by
  have hopp : oppositeSignal ctx.alerts p = true := by
    unfold oppositeSignal
    rw [← hid, dictLast_nodup_mem SignalT.market_id ctx.alerts s hnd hs]
    simpa using hside
  unfold closeReason
  rw [hopp]
  rfl

theorem closeReason_decay_iff (ctx : CloseCtx) (p : Position) (row : EvalRow)
    (hopp : oppositeSignal ctx.alerts p = false)
    (hrow : dictLast EvalRow.marketId ctx.evals p.marketId = some row) :
    (closeReason ctx p = some "edge_decay" ↔
      (p.side = Side.yes ∧ row.edgeBps < ctx.closeEdgeBps)
        ∨ (p.side = Side.no ∧ -ctx.closeEdgeBps < row.edgeBps)) := by
  unfold closeReason
  rw [hopp, hrow]
  simp only [Bool.false_eq_true, if_false]
  split
  · rename_i hcond
    exact iff_of_true rfl hcond
  · rename_i hcond
    exact iff_of_false (by simp) hcond

theorem closeReason_none_of_no_row (ctx : CloseCtx) (p : Position)
    (hopp : oppositeSignal ctx.alerts p = false)
    (hrow : dictLast EvalRow.marketId ctx.evals p.marketId = none) :
    closeReason ctx p = none := by
  unfold closeReason
  rw [hopp, hrow]
  rfl

theorem closePass_spec (ctx : CloseCtx) :
    ∀ (ps : List Position) (cash : ℚ),
      (closePass ctx cash ps).1
          = cash + ((ps.filter fun p => (closeReason ctx p).isSome).map
              (markValueOf ctx.evals)).sum
      ∧ (closePass ctx cash ps).2.1
          = (ps.filter fun p => (closeReason ctx p).isNone).map (markUpd ctx)
      ∧ (closePass ctx cash ps).2.2
          = ps.filterMap fun p => (closeReason ctx p).map (mkCloseTrade ctx p) := by
  intro ps
  induction ps with
  | nil => intro cash; exact ⟨by simp [closePass], rfl, rfl⟩
  | cons p rest ih =>
    intro cash
    cases hcr : closeReason ctx p with
    | some reason =>
      refine ⟨?_, ?_, ?_⟩
      · show (closePass ctx cash (p :: rest)).1 = _
        rw [closePass, hcr]
        rw [(ih (cash + markValueOf ctx.evals p)).1]
        rw [List.filter_cons_of_pos (by simp [hcr])]
        rw [List.map_cons, List.sum_cons]
        ring
      · show (closePass ctx cash (p :: rest)).2.1 = _
        rw [closePass, hcr]
        rw [(ih (cash + markValueOf ctx.evals p)).2.1]
        rw [List.filter_cons_of_neg (by simp [hcr])]
      · show (closePass ctx cash (p :: rest)).2.2 = _
        rw [closePass, hcr]
        rw [(ih (cash + markValueOf ctx.evals p)).2.2]
        rw [List.filterMap_cons_some (by rw [hcr]; rfl)]
    | none =>
      refine ⟨?_, ?_, ?_⟩
      · show (closePass ctx cash (p :: rest)).1 = _
        rw [closePass, hcr]
        rw [(ih cash).1]
        rw [List.filter_cons_of_neg (by simp [hcr])]
      · show (closePass ctx cash (p :: rest)).2.1 = _
        rw [closePass, hcr]
        rw [(ih cash).2.1]
        rw [List.filter_cons_of_pos (by simp [hcr])]
        rfl
      · show (closePass ctx cash (p :: rest)).2.2 = _
        rw [closePass, hcr]
        rw [(ih cash).2.2]
        rw [List.filterMap_cons_none (by rw [hcr]; rfl)]

/-- Claim C3: in the ledger close pass, a position closes with reason
`opposite_signal` whenever this run carries a signal for the same market with
the other side (taking priority over, and independent of, edge decay); absent
an opposite signal and given a current evaluation row, a YES position closes
exactly when `edge_bps < close_edge_bps` and a NO position exactly when
`edge_bps > −close_edge_bps`; on any close, cash is credited with the current
mark value, a CLOSE trade carrying realized PNL = mark value − cost basis is
appended, and the position is removed; a surviving position keeps its
identity and only its last-mark price/value/timestamp are updated. -/
theorem claim_C3 :
    (∀ (ctx : CloseCtx) (p : Position) (s : SignalT),
      (ctx.alerts.map SignalT.market_id).Nodup → s ∈ ctx.alerts →
      s.market_id = p.marketId → signalSide s.action ≠ p.side →
      closeReason ctx p = some "opposite_signal")
    ∧ (∀ (ctx : CloseCtx) (p : Position) (row : EvalRow),
      oppositeSignal ctx.alerts p = false →
      dictLast EvalRow.marketId ctx.evals p.marketId = some row →
      (closeReason ctx p = some "edge_decay" ↔
        (p.side = Side.yes ∧ row.edgeBps < ctx.closeEdgeBps)
          ∨ (p.side = Side.no ∧ -ctx.closeEdgeBps < row.edgeBps)))
    ∧ (∀ (ctx : CloseCtx) (ps : List Position) (cash : ℚ),
      (closePass ctx cash ps).1
          = cash + ((ps.filter fun p => (closeReason ctx p).isSome).map
              (markValueOf ctx.evals)).sum
      ∧ (closePass ctx cash ps).2.1
          = (ps.filter fun p => (closeReason ctx p).isNone).map (markUpd ctx)
      ∧ (closePass ctx cash ps).2.2
          = ps.filterMap fun p => (closeReason ctx p).map (mkCloseTrade ctx p))
    ∧ (∀ (ctx : CloseCtx) (p : Position) (reason : String),
      mkCloseTrade ctx p reason = Trade.close ctx.now p.marketId p.question p.side
        (roundTo 8 p.qty) (roundTo 6 (currentYesPrice ctx.evals p))
        (roundTo 2 (markValueOf ctx.evals p)) (roundTo 2 p.costUsd)
        (roundTo 2 (markValueOf ctx.evals p - p.costUsd)) reason)
    ∧ (∀ (ctx : CloseCtx) (p : Position),
      (markUpd ctx p).marketId = p.marketId ∧ (markUpd ctx p).question = p.question
      ∧ (markUpd ctx p).side = p.side ∧ (markUpd ctx p).qty = p.qty
      ∧ (markUpd ctx p).entryYesPrice = p.entryYesPrice
      ∧ (markUpd ctx p).entryUnitPrice = p.entryUnitPrice
      ∧ (markUpd ctx p).costUsd = p.costUsd ∧ (markUpd ctx p).entryTs = p.entryTs
      ∧ (markUpd ctx p).lastYesPrice = currentYesPrice ctx.evals p
      ∧ (markUpd ctx p).lastMarkValueUsd = roundTo 2 (markValueOf ctx.evals p)
      ∧ (markUpd ctx p).lastMarkTs = ctx.now) := by
  refine ⟨closeReason_opposite, closeReason_decay_iff, closePass_spec, ?_, ?_⟩
  · intro ctx p reason
    rfl
  · intro ctx p
    exact ⟨rfl, rfl, rfl, rfl, rfl, rfl, rfl, rfl, rfl, rfl, rfl⟩

/-- Witness for claim C3: a YES position meets a BUY_NO signal for its market
and closes with reason `opposite_signal`. -/
theorem claim_C3_witness :
    closeReason ⟨[⟨"m1", "q", "BUY_NO", 0, 0, 0, 0, 0, ""⟩], [], 0, "t"⟩
      ⟨"m1", "q", Side.yes, 0, 0, 0, 0, "", 0, 0, ""⟩ = some "opposite_signal" :=
  claim_C3.1 ⟨[⟨"m1", "q", "BUY_NO", 0, 0, 0, 0, 0, ""⟩], [], 0, "t"⟩
    ⟨"m1", "q", Side.yes, 0, 0, 0, 0, "", 0, 0, ""⟩
    ⟨"m1", "q", "BUY_NO", 0, 0, 0, 0, 0, ""⟩ (by decide) (by decide) rfl (by decide)

/-! ## Open-pass lemmas -/

theorem priceForSide_bounds (y : ℚ) (side : Side) :
    1/1000 ≤ priceForSide y side ∧ priceForSide y side ≤ 999/1000 := by
  have h1 : (1:ℚ)/1000 ≤ max (1/1000) (min (999/1000) y) := le_max_left _ _
  have h2 : max (1/1000) (min (999/1000) y) ≤ 999/1000 :=
    max_le (by norm_num) (min_le_left _ _)
  cases side
  · exact ⟨h1, h2⟩
  · unfold priceForSide
    constructor <;> simp only [] <;> linarith

theorem insertByEdgeDesc_perm (s : SignalT) (l : List SignalT) :
    (insertByEdgeDesc s l).Perm (s :: l) := by
  induction l with
  | nil => exact List.Perm.refl _
  | cons t ts ih =>
    rw [insertByEdgeDesc]
    split
    · exact (ih.cons t).trans (List.Perm.swap s t ts)
    · exact List.Perm.refl _

theorem insertByEdgeDesc_sorted (s : SignalT) (l : List SignalT)
    (h : l.Pairwise fun a b => |b.edge_bps| ≤ |a.edge_bps|) :
    (insertByEdgeDesc s l).Pairwise fun a b => |b.edge_bps| ≤ |a.edge_bps| := by
  induction l with
  | nil => simp [insertByEdgeDesc]
  | cons t ts ih =>
    rw [List.pairwise_cons] at h
    rw [insertByEdgeDesc]
    by_cases hc : |s.edge_bps| < |t.edge_bps|
    · rw [if_pos hc]
      rw [List.pairwise_cons]
      constructor
      · intro b hb
        rcases List.mem_cons.mp ((insertByEdgeDesc_perm s ts).mem_iff.mp hb) with rfl | hb2
        · exact le_of_lt hc
        · exact h.1 b hb2
      · exact ih h.2
    · rw [if_neg hc]
      rw [List.pairwise_cons]
      constructor
      · intro b hb
        rcases List.mem_cons.mp hb with rfl | hb
        · exact not_lt.mp hc
        · exact le_trans (h.1 b hb) (not_lt.mp hc)
      · exact List.pairwise_cons.mpr h

theorem sortByEdgeDesc_perm (l : List SignalT) : (sortByEdgeDesc l).Perm l := by
  induction l with
  | nil => exact List.Perm.refl _
  | cons s rest ih =>
    rw [sortByEdgeDesc]
    exact (insertByEdgeDesc_perm s (sortByEdgeDesc rest)).trans (ih.cons s)

theorem sortByEdgeDesc_sorted (l : List SignalT) :
    (sortByEdgeDesc l).Pairwise fun a b => |b.edge_bps| ≤ |a.edge_bps| := by
  induction l with
  | nil => simp [sortByEdgeDesc]
  | cons s rest ih =>
    rw [sortByEdgeDesc]
    exact insertByEdgeDesc_sorted s (sortByEdgeDesc rest) ih

theorem insertByEdgeDesc_filter (s : SignalT) (k : ℤ) :
    ∀ l : List SignalT,
      (insertByEdgeDesc s l).filter (fun x => decide (|x.edge_bps| = k))
        = if |s.edge_bps| = k
          then s :: l.filter (fun x => decide (|x.edge_bps| = k))
          else l.filter (fun x => decide (|x.edge_bps| = k)) := by
  intro l
  induction l with
  | nil =>
    by_cases hk : |s.edge_bps| = k <;> simp [insertByEdgeDesc, hk]
  | cons t ts ih =>
    rw [insertByEdgeDesc]
    by_cases hc : |s.edge_bps| < |t.edge_bps|
    · rw [if_pos hc]
      by_cases htk : |t.edge_bps| = k
      · have hsk : ¬(|s.edge_bps| = k) := by omega
        rw [List.filter_cons_of_pos (by simpa using htk), ih, if_neg hsk, if_neg hsk,
            List.filter_cons_of_pos (by simpa using htk)]
      · rw [List.filter_cons_of_neg (by simpa using htk), ih,
            List.filter_cons_of_neg (by simpa using htk)]
    · rw [if_neg hc]
      by_cases hsk : |s.edge_bps| = k
      · rw [List.filter_cons_of_pos (by simpa using hsk), if_pos hsk]
      · rw [List.filter_cons_of_neg (by simpa using hsk), if_neg hsk]

theorem sortByEdgeDesc_filter (k : ℤ) :
    ∀ l : List SignalT,
      (sortByEdgeDesc l).filter (fun x => decide (|x.edge_bps| = k))
        = l.filter (fun x => decide (|x.edge_bps| = k)) := by
  intro l
  induction l with
  | nil => rfl
  | cons s rest ih =>
    rw [sortByEdgeDesc, insertByEdgeDesc_filter, ih]
    by_cases hsk : |s.edge_bps| = k
    · rw [if_pos hsk, List.filter_cons_of_pos (by simpa using hsk)]
    · rw [if_neg hsk, List.filter_cons_of_neg (by simpa using hsk)]

theorem openPass_stops (ctx : OpenCtx) :
    ∀ (l : List SignalT) (st : OpenSt),
      (ctx.maxOpenPositions ≤ st.positions.length ∨ st.cash < ctx.positionSizeUsd) →
      openPass ctx l st = st := by
  intro l
  induction l with
  | nil => intro st _; rfl
  | cons s rest ih =>
    intro st h
    rw [openPass]
    by_cases hmax : ctx.maxOpenPositions ≤ st.positions.length
    · rw [if_pos hmax]
    · rw [if_neg hmax]
      have hcash : st.cash < ctx.positionSizeUsd := h.resolve_left hmax
      by_cases hskip : sameSideSkip st.positions s = true
      · rw [if_pos hskip]
        exact ih st (Or.inr hcash)
      · rw [if_neg hskip, if_pos hcash]

theorem openPass_skip (ctx : OpenCtx) (s : SignalT) (rest : List SignalT) (st : OpenSt)
    (hskip : sameSideSkip st.positions s = true) :
    openPass ctx (s :: rest) st = openPass ctx rest st := by
  rw [openPass]
  by_cases hmax : ctx.maxOpenPositions ≤ st.positions.length
  · rw [if_pos hmax, openPass_stops ctx rest st (Or.inl hmax)]
  · rw [if_neg hmax, if_pos hskip]

theorem openPass_open (ctx : OpenCtx) (s : SignalT) (rest : List SignalT) (st : OpenSt)
    (hmax : st.positions.length < ctx.maxOpenPositions)
    (hskip : sameSideSkip st.positions s = false)
    (hcash : ctx.positionSizeUsd ≤ st.cash) :
    openPass ctx (s :: rest) st = openPass ctx rest (openOne ctx s st) := by
  rw [openPass, if_neg (not_le.mpr hmax), if_neg (by simp [hskip]),
      if_neg (not_lt.mpr hcash)]

/-- Claim C4: in the ledger open pass, signals are processed in descending
order of absolute edge with ties in stable input order (the processed list is
sorted, is a permutation of the input, and preserves the input order within
every absolute-edge value); processing stops once open positions reach
`max_open_positions` or cash < `position_size_usd`; a signal whose market
already holds a same-side position is skipped without opening; each opened
position uses unit price `priceForSide` (the yes price clamped to
`[0.001, 0.999]`, complemented for NO), has cost basis exactly
`position_size_usd`, decreases cash by exactly `position_size_usd`, and its
quantity × unit price equals `position_size_usd`. -/
theorem claim_C4 :
    (∀ alerts : List SignalT,
      ((sortByEdgeDesc alerts).Pairwise fun a b => |b.edge_bps| ≤ |a.edge_bps|)
      ∧ (sortByEdgeDesc alerts).Perm alerts
      ∧ ∀ k : ℤ, (sortByEdgeDesc alerts).filter (fun x => decide (|x.edge_bps| = k))
          = alerts.filter (fun x => decide (|x.edge_bps| = k)))
    ∧ (∀ (ctx : OpenCtx) (l : List SignalT) (st : OpenSt),
      ctx.maxOpenPositions ≤ st.positions.length ∨ st.cash < ctx.positionSizeUsd →
      openPass ctx l st = st)
    ∧ (∀ (ctx : OpenCtx) (s : SignalT) (rest : List SignalT) (st : OpenSt),
      sameSideSkip st.positions s = true →
      openPass ctx (s :: rest) st = openPass ctx rest st)
    ∧ (∀ (ctx : OpenCtx) (s : SignalT) (rest : List SignalT) (st : OpenSt),
      st.positions.length < ctx.maxOpenPositions →
      sameSideSkip st.positions s = false →
      ctx.positionSizeUsd ≤ st.cash →
      openPass ctx (s :: rest) st = openPass ctx rest (openOne ctx s st)
      ∧ (openOne ctx s st).cash = st.cash - ctx.positionSizeUsd
      ∧ (openOne ctx s st).positions = dictInsert (newPosition ctx s) st.positions
      ∧ (newPosition ctx s).costUsd = ctx.positionSizeUsd
      ∧ (newPosition ctx s).entryUnitPrice
          = priceForSide (entryYesPriceFor ctx s) (signalSide s.action)
      ∧ 1/1000 ≤ (newPosition ctx s).entryUnitPrice
      ∧ (newPosition ctx s).entryUnitPrice ≤ 999/1000
      ∧ (newPosition ctx s).qty * (newPosition ctx s).entryUnitPrice
          = ctx.positionSizeUsd) := by
  refine ⟨?_, openPass_stops, openPass_skip, ?_⟩
  · intro alerts
    exact ⟨sortByEdgeDesc_sorted alerts, sortByEdgeDesc_perm alerts,
           fun k => sortByEdgeDesc_filter k alerts⟩
  · intro ctx s rest st hmax hskip hcash
    have hunit := priceForSide_bounds (entryYesPriceFor ctx s) (signalSide s.action)
    have hne : priceForSide (entryYesPriceFor ctx s) (signalSide s.action) ≠ 0 := by
      have : (0:ℚ) < 1/1000 := by norm_num
      exact ne_of_gt (lt_of_lt_of_le this hunit.1)
    refine ⟨openPass_open ctx s rest st hmax hskip hcash, rfl, rfl, rfl, rfl,
            hunit.1, hunit.2, ?_⟩
    show ctx.positionSizeUsd / priceForSide (entryYesPriceFor ctx s) (signalSide s.action)
        * priceForSide (entryYesPriceFor ctx s) (signalSide s.action) = ctx.positionSizeUsd
    exact div_mul_cancel₀ ctx.positionSizeUsd hne

/-- Witness for claim C4: opening one position with unit size from unit cash;
the new position's quantity times its unit price is exactly the position
size. -/
theorem claim_C4_witness :
    (newPosition ⟨[], 1, 1, "t"⟩ ⟨"m", "q", "BUY_YES", 0, 0, 0, 0, 0, ""⟩).qty
      * (newPosition ⟨[], 1, 1, "t"⟩ ⟨"m", "q", "BUY_YES", 0, 0, 0, 0, 0, ""⟩).entryUnitPrice
      = 1 :=
  (claim_C4.2.2.2 ⟨[], 1, 1, "t"⟩ ⟨"m", "q", "BUY_YES", 0, 0, 0, 0, 0, ""⟩ []
    ⟨1, [], []⟩ (by decide) (by decide) (by decide)).2.2.2.2.2.2.2

/-! ## Idempotence lemmas (claim C8) -/

theorem currentYesPrice_markUpd (ctx : CloseCtx) (p : Position) :
    currentYesPrice ctx.evals (markUpd ctx p) = currentYesPrice ctx.evals p := by
  have hm : (markUpd ctx p).marketId = p.marketId := rfl
  unfold currentYesPrice
  rw [hm]
  cases hrow : dictLast EvalRow.marketId ctx.evals p.marketId with
  | some r => rfl
  | none =>
    show (markUpd ctx p).lastYesPrice = p.lastYesPrice
    show currentYesPrice ctx.evals p = p.lastYesPrice
    unfold currentYesPrice
    rw [hrow]

theorem markValueOf_markUpd (ctx : CloseCtx) (p : Position) :
    markValueOf ctx.evals (markUpd ctx p) = markValueOf ctx.evals p := by
  show (markUpd ctx p).qty
      * priceForSide (currentYesPrice ctx.evals (markUpd ctx p)) (markUpd ctx p).side
    = p.qty * priceForSide (currentYesPrice ctx.evals p) p.side
  rw [currentYesPrice_markUpd]
  rfl

theorem closeReason_markUpd (ctx : CloseCtx) (p : Position) :
    closeReason ctx (markUpd ctx p) = closeReason ctx p := by
  have hm : (markUpd ctx p).marketId = p.marketId := rfl
  have hs : (markUpd ctx p).side = p.side := rfl
  unfold closeReason oppositeSignal
  rw [hm, hs]

theorem markUpd_idem (ctx : CloseCtx) (p : Position) :
    markUpd ctx (markUpd ctx p) = markUpd ctx p := by
  have h1 := currentYesPrice_markUpd ctx p
  have h2 := markValueOf_markUpd ctx p
  show ({ markUpd ctx p with
            lastYesPrice := currentYesPrice ctx.evals (markUpd ctx p),
            lastMarkValueUsd := roundTo 2 (markValueOf ctx.evals (markUpd ctx p)),
            lastMarkTs := ctx.now } : Position)
      = markUpd ctx p
  rw [h1, h2]
  rfl

theorem closePass_fixed (ctx : CloseCtx) (ps : List Position)
    (h : ∀ p ∈ ps, closeReason ctx p = none) (cash : ℚ) :
    closePass ctx cash ps = (cash, ps.map (markUpd ctx), []) := by
  obtain ⟨h1, h2, h3⟩ := closePass_spec ctx ps cash
  have hfilterN : ps.filter (fun p => (closeReason ctx p).isNone) = ps := by
    rw [List.filter_eq_self]
    intro p hp
    simp [h p hp]
  have hfilterS : ps.filter (fun p => (closeReason ctx p).isSome) = [] := by
    rw [List.filter_eq_nil_iff]
    intro p hp
    simp [h p hp]
  have hfm : (ps.filterMap fun p => (closeReason ctx p).map (mkCloseTrade ctx p)) = [] := by
    rw [List.filterMap_eq_nil_iff]
    intro p hp
    rw [h p hp]
    rfl
  rw [hfilterN] at h2
  rw [hfilterS] at h1
  rw [hfm] at h3
  simp only [List.map_nil, List.sum_nil, add_zero] at h1
  refine Prod.ext h1 (Prod.ext h2 h3)

theorem applyPaperTrading_nil (cfg : PaperCfg) (evals : List EvalRow) (now : String)
    (st : LedgerState) :
    (applyPaperTrading cfg evals [] now st).state.cashUsd
        = (closePass ⟨[], evals, cfg.closeEdgeBps, now⟩ st.cashUsd st.positions).1
    ∧ (applyPaperTrading cfg evals [] now st).state.positions
        = (closePass ⟨[], evals, cfg.closeEdgeBps, now⟩ st.cashUsd st.positions).2.1 :=
  ⟨rfl, rfl⟩

theorem applyPaperTrading_equity (cfg : PaperCfg) (evals : List EvalRow)
    (alerts : List SignalT) (now : String) (st : LedgerState) :
    (applyPaperTrading cfg evals alerts now st).summary.equityUsd
      = roundTo 2 ((applyPaperTrading cfg evals alerts now st).state.cashUsd
          + (((applyPaperTrading cfg evals alerts now st).state.positions).map
              (markValueOf evals)).sum) := rfl

/-- Claim C8: applying the ledger update twice with an empty signal list and
an unchanged evaluation set is idempotent — the second application leaves
cash, the open positions, and the reported equity identical to the result of
the first application. -/
theorem claim_C8 (cfg : PaperCfg) (evaluations : List EvalRow) (now : String)
    (state : LedgerState) :
    (applyPaperTrading cfg evaluations [] now
        (applyPaperTrading cfg evaluations [] now state).state).state.cashUsd
      = (applyPaperTrading cfg evaluations [] now state).state.cashUsd
    ∧ (applyPaperTrading cfg evaluations [] now
        (applyPaperTrading cfg evaluations [] now state).state).state.positions
      = (applyPaperTrading cfg evaluations [] now state).state.positions
    ∧ (applyPaperTrading cfg evaluations [] now
        (applyPaperTrading cfg evaluations [] now state).state).summary.equityUsd
      = (applyPaperTrading cfg evaluations [] now state).summary.equityUsd := by
  obtain ⟨hc1, hp1⟩ := applyPaperTrading_nil cfg evaluations now state
  obtain ⟨hc2, hp2⟩ :=
    applyPaperTrading_nil cfg evaluations now (applyPaperTrading cfg evaluations [] now state).state
  rw [hc1, hp1] at hc2 hp2
  have hspec := closePass_spec ⟨[], evaluations, cfg.closeEdgeBps, now⟩
    state.positions state.cashUsd
  have hsurv : ∀ p ∈ (closePass ⟨[], evaluations, cfg.closeEdgeBps, now⟩
      state.cashUsd state.positions).2.1,
      closeReason ⟨[], evaluations, cfg.closeEdgeBps, now⟩ p = none := by
    rw [hspec.2.1]
    intro p hp
    rw [List.mem_map] at hp
    obtain ⟨q, hq, rfl⟩ := hp
    rw [List.mem_filter] at hq
    rw [closeReason_markUpd]
    have := hq.2
    simpa [Option.isNone_iff_eq_none] using this
  have hfix := closePass_fixed ⟨[], evaluations, cfg.closeEdgeBps, now⟩
    ((closePass ⟨[], evaluations, cfg.closeEdgeBps, now⟩ state.cashUsd state.positions).2.1)
    hsurv
    ((closePass ⟨[], evaluations, cfg.closeEdgeBps, now⟩ state.cashUsd state.positions).1)
  have hmapid : ((closePass ⟨[], evaluations, cfg.closeEdgeBps, now⟩
        state.cashUsd state.positions).2.1).map
        (markUpd ⟨[], evaluations, cfg.closeEdgeBps, now⟩)
      = (closePass ⟨[], evaluations, cfg.closeEdgeBps, now⟩
          state.cashUsd state.positions).2.1 := by
    rw [hspec.2.1, List.map_map]
    exact List.map_congr_left fun q _ =>
      markUpd_idem ⟨[], evaluations, cfg.closeEdgeBps, now⟩ q
  have hcash : (applyPaperTrading cfg evaluations [] now
        (applyPaperTrading cfg evaluations [] now state).state).state.cashUsd
      = (applyPaperTrading cfg evaluations [] now state).state.cashUsd := by
    rw [hc2, hfix, hc1]
  have hpos : (applyPaperTrading cfg evaluations [] now
        (applyPaperTrading cfg evaluations [] now state).state).state.positions
      = (applyPaperTrading cfg evaluations [] now state).state.positions := by
    rw [hp2, hfix, hp1]
    exact hmapid
  refine ⟨hcash, hpos, ?_⟩
  rw [applyPaperTrading_equity, applyPaperTrading_equity, hcash, hpos]

end Bot
